import Mathlib

/-!
Verification development for the `marketxtradermodel` repository.

The Python sources are shallowly embedded below:

* `priceranges.py` (class `PriceRanges`)   → section `PriceRangesModel`
* `trader.py` (class `Trader`)             → section `TraderModel`
* `simulation.py` (`time_step`, `evolve`, `simulate_and_distill`)
                                           → section `SimulationModel`

Python floats are modelled as rationals (`ℚ`); the value `math.inf` that
`PriceRanges._search_price` uses as a "no solution" sentinel is modelled by
`Option ℚ` with `none` standing for infinity.  Exceptions are modelled with
`Except`.  Python's negative-index list semantics (`l[-1]` is the last
element) is modelled explicitly by `pyGet`.
-/

namespace MXTM

/-- Errors that `PriceRanges` methods can raise.
`emptyErr` is the `Exception("No buy and sell prices registered.")` of
`compute_price`; `noSolution` is `Exception("No solution found...")`;
`indexError` models a Python `IndexError` from an out-of-range list access. -/
inductive PRError : Type
  | emptyErr : PRError
  | noSolution : PRError
  | indexError : PRError
deriving DecidableEq, Repr

/-- State of a `PriceRanges` object (`priceranges.py`, `__init__`):
`prices` is `self._prices`, `bdiffs` is `self._balance_differences`,
`priceRef` is `self._price_ref` and `balance` is `self._balance`. -/
structure PRS (α : Type) where
  prices : List α
  bdiffs : List ℤ
  priceRef : α
  balance : ℤ
deriving DecidableEq, Repr

/-- `bisect.bisect_left` on a sorted list: the number of leading elements
strictly below `x`, i.e. the leftmost insertion point for `x`. -/
def bisectLeft {α : Type} [LinearOrder α] : List α → α → ℕ
  | [], _ => 0
  | y :: t, x => if y < x then bisectLeft t x + 1 else 0

/-- Weight `w` of a quote pair (`insert`, line `w = -1 if p_b < p_s else 1`). -/
def pairWeight {α : Type} [LinearOrder α] (ps pb : α) : ℤ :=
  if pb < ps then -1 else 1

/-- `PriceRanges.insert(p_s, p_b)`.  Both quotes are inserted at their
`bisect_left` position (the second bisect runs on the already-updated price
list, as in the source), the weight `w` is inserted at the same positions of
the parallel difference list, and the balance is adjusted exactly by the
source's two strict comparisons against the reference price. -/
def prInsert {α : Type} [LinearOrder α] (s : PRS α) (ps pb : α) : PRS α :=
  let w := pairWeight ps pb
  let i_s := bisectLeft s.prices ps
  let prices1 := s.prices.insertIdx i_s ps
  let bdiffs1 := s.bdiffs.insertIdx i_s w
  let i_b := bisectLeft prices1 pb
  let prices2 := prices1.insertIdx i_b pb
  let bdiffs2 := bdiffs1.insertIdx i_b w
  let bal :=
    if s.priceRef > pb ∧ s.priceRef > ps then s.balance + w
    else if s.priceRef < pb ∧ s.priceRef < ps then s.balance - w
    else s.balance
  { prices := prices2, bdiffs := bdiffs2, priceRef := s.priceRef, balance := bal }

/-- `PriceRanges.clear_prices()`. -/
def clearPrices {α : Type} (s : PRS α) : PRS α :=
  { prices := [], bdiffs := [], priceRef := s.priceRef, balance := 0 }

/-- A cleared tracker whose reference price is `r`; `clearedPR 0` is the
state produced by `PriceRanges.__init__`. -/
def clearedPR (r : ℚ) : PRS ℚ :=
  { prices := [], bdiffs := [], priceRef := r, balance := 0 }

/-- Fold a list of `(sell, buy)` pairs through `insert`. -/
def insertAll (s : PRS ℚ) (ps : List (ℚ × ℚ)) : PRS ℚ :=
  ps.foldl (fun t q => prInsert t q.1 q.2) s

/-- The tracker state reached from a cleared tracker with reference price `r`
by inserting the pairs of `ps` in order.  Every state arising in the
per-step lifecycle (`clear_prices`; `insert`*; `compute_price`) is of this
form just before `compute_price` runs. -/
def trackerOf (r : ℚ) (ps : List (ℚ × ℚ)) : PRS ℚ :=
  insertAll (clearedPR r) ps

/-- Python list indexing `l[i]` for `i : ℤ`: non-negative indices are plain
positions, negative indices count from the end, anything out of range is an
`IndexError` (`none`). -/
def pyGet {α : Type} (l : List α) (i : ℤ) : Option α :=
  if 0 ≤ i then l[i.toNat]?
  else if 0 ≤ i + l.length then l[(i + l.length).toNat]? else none

/-- Loop of `_search_price` for direction `d = 1`, in terms of `i = idx + 1`
(so `i` stays a natural number; the Python loop is
`while b != 0 and idx+1 >= 0 and idx+1 < len(bd): idx += 1; b += bd[idx]`).
The `fuel` argument bounds the iteration count; `walkUp` supplies
`bd.length`, which is enough fuel since `i` grows by 1 per iteration and the
loop stops as soon as `i` reaches `bd.length`. -/
def walkUpAux (bd : List ℤ) : ℕ → ℕ → ℤ → ℕ × ℤ
  | 0, i, b => (i, b)
  | fuel + 1, i, b =>
    if b ≠ 0 ∧ i < bd.length then
      walkUpAux bd fuel (i + 1) (b + bd.getD i 0)
    else (i, b)

/-- The direction `+1` loop of `_search_price`, started at `i = start_idx`
(Python initialises `idx = start_idx - 1`, i.e. `i = start_idx`). -/
def walkUp (bd : List ℤ) (start : ℕ) (b : ℤ) : ℕ × ℤ :=
  walkUpAux bd bd.length start b

/-- Loop of `_search_price` for direction `d = -1`:
`while b != 0 and idx-1 >= 0 and idx-1 < len(bd): idx -= 1; b -= bd[idx]`.
`fuel = start` is enough since `idx` shrinks by 1 per iteration and the loop
stops when `idx` hits 0. -/
def walkDownAux (bd : List ℤ) : ℕ → ℕ → ℤ → ℕ × ℤ
  | 0, idx, b => (idx, b)
  | fuel + 1, idx, b =>
    if b ≠ 0 ∧ 1 ≤ idx ∧ idx - 1 < bd.length then
      walkDownAux bd fuel (idx - 1) (b - bd.getD (idx - 1) 0)
    else (idx, b)

/-- The direction `-1` loop of `_search_price`, started at `idx = start_idx`. -/
def walkDown (bd : List ℤ) (start : ℕ) (b : ℤ) : ℕ × ℤ :=
  walkDownAux bd start start b

/-- `PriceRanges._search_price(start_idx, 1)`.  Result `some (some p)` is a
found midpoint, `some none` is the `math.inf` sentinel, `none` is an
`IndexError` (impossible on the states `compute_price` produces, but kept to
stay total and faithful). -/
def searchHi (s : PRS ℚ) (start : ℕ) : Option (Option ℚ) :=
  let r := walkUp s.bdiffs start s.balance
  if r.2 = 0 ∧ r.1 < s.prices.length then
    match pyGet s.prices ((r.1 : ℤ) - 1), pyGet s.prices (r.1 : ℤ) with
    | some a, some c => some (some ((a + c) / 2))
    | _, _ => none
  else some none

/-- `PriceRanges._search_price(start_idx, -1)`. -/
def searchLo (s : PRS ℚ) (start : ℕ) : Option (Option ℚ) :=
  let r := walkDown s.bdiffs start s.balance
  if r.2 = 0 ∧ 1 ≤ r.1 ∧ ((r.1 : ℤ) - 1) < s.prices.length then
    match pyGet s.prices (r.1 : ℤ), pyGet s.prices ((r.1 : ℤ) - 1) with
    | some a, some c => some (some ((a + c) / 2))
    | _, _ => none
  else some none

/-- `min(p_lo, p_hi, key = lambda p : abs(p - price_ref))` with `none` as
infinity; on a tie Python's `min` returns its first argument `p_lo`. -/
def pickCloser (r : ℚ) (plo phi : Option ℚ) : Option ℚ :=
  match plo, phi with
  | none, p => p
  | some a, none => some a
  | some a, some b => if |a - r| ≤ |b - r| then some a else some b

/-- `PriceRanges.compute_price()`.  Returns the price together with the
updated state (the source sets `self._price_ref = p` before returning;
note that `self._balance` is *not* updated). -/
def computePrice (s : PRS ℚ) : Except PRError (ℚ × PRS ℚ) :=
  if s.prices.length ≤ 0 then .error .emptyErr
  else
    let idx := bisectLeft s.prices s.priceRef
    if s.balance = 0 then
      match pyGet s.prices ((idx : ℤ) - 1), pyGet s.prices (idx : ℤ) with
      | some a, some c =>
        let p := (a + c) / 2
        .ok (p, { s with priceRef := p })
      | _, _ => .error .indexError
    else
      match searchLo s idx, searchHi s idx with
      | some plo, some phi =>
        match pickCloser s.priceRef plo phi with
        | none => .error .noSolution
        | some p => .ok (p, { s with priceRef := p })
      | _, _ => .error .indexError

/-- Price component of a `compute_price` result, for stating concrete cases. -/
def priceOf (e : Except PRError (ℚ × PRS ℚ)) : Option ℚ :=
  match e with
  | .ok pr => some pr.1
  | .error _ => none

end MXTM

namespace MXTM

/-! ### Semantic functions on the inserted quote pairs

These definitions talk about the multiset of `(sell, buy)` pairs inserted
since the last clear; they are the vocabulary of the spec's §8 properties. -/

/-- All quotes (sell and buy) of a list of pairs, in insertion order. -/
def quotes (ps : List (ℚ × ℚ)) : List ℚ :=
  ps.flatMap (fun pr => [pr.1, pr.2])

/-- Quotes paired with the weight of their pair. -/
def quotesWeights (ps : List (ℚ × ℚ)) : List (ℚ × ℤ) :=
  ps.flatMap (fun pr => [(pr.1, pairWeight pr.1 pr.2), (pr.2, pairWeight pr.1 pr.2)])

/-- Contribution of one pair to the tracker balance at reference price `r`:
exactly the amount `insert` adds to `self._balance` for this pair. -/
def contrib (r : ℚ) (pr : ℚ × ℚ) : ℤ :=
  if r > pr.2 ∧ r > pr.1 then pairWeight pr.1 pr.2
  else if r < pr.2 ∧ r < pr.1 then -pairWeight pr.1 pr.2
  else 0

/-- Signed (buyers − sellers) imbalance of the pair list at reference `r`. -/
def sbal (r : ℚ) (ps : List (ℚ × ℚ)) : ℤ :=
  (ps.map (contrib r)).sum

/-- Sum of the pair weights of `ps`. -/
def sumW (ps : List (ℚ × ℚ)) : ℤ :=
  (ps.map (fun pr => pairWeight pr.1 pr.2)).sum

/-- Number of inserted buy quotes strictly below `p`. -/
def buyCount (ps : List (ℚ × ℚ)) (p : ℚ) : ℕ :=
  (ps.filter (fun pr => decide (pr.2 < p))).length

/-- Number of inserted sell quotes strictly above `p`. -/
def sellCount (ps : List (ℚ × ℚ)) (p : ℚ) : ℕ :=
  (ps.filter (fun pr => decide (pr.1 > p))).length

/-- Sum of the `balanceDeltas` entries at prices strictly below the
reference price (the quantity named in the spec's tracker invariant). -/
def diffsBelow (s : PRS ℚ) : ℤ :=
  (((s.prices.zip s.bdiffs).filter (fun q => decide (q.1 < s.priceRef))).map Prod.snd).sum

/-! ### Quote domain with infinities, for `insert`'s handling of `math.inf`

Python floats include `inf` and `-inf`; `WithBot (WithTop ℚ)` is the
ordered extension of `ℚ` by a largest and a smallest element. -/

/-- Python float domain: rationals plus `-inf` and `inf`. -/
abbrev PyF : Type := WithBot (WithTop ℚ)

/-- The value `math.inf`. -/
def pInf : PyF := ((⊤ : WithTop ℚ) : PyF)

/-- The value `-math.inf`. -/
def nInf : PyF := (⊥ : PyF)

/-- Embedding of a finite float into the extended domain. -/
def pyF (q : ℚ) : PyF := ((q : WithTop ℚ) : PyF)

/-- A fresh `PriceRanges()` whose quotes live in the extended float domain. -/
def prInitF : PRS PyF :=
  { prices := [], bdiffs := [], priceRef := pyF 0, balance := 0 }

end MXTM

namespace MXTM

/-! ### Concrete evaluations settling claims C10, and the counterexample /
failing-input computations for C1, C3, C4, C5, C6 and C7. -/

/-- C10: the four concrete solve cases of the spec hold on a fresh tracker
(reference price 0): insert(1,−1) solves to 0; insert(4,2) to 3;
insert(−4,−2) to −3; and the three inserts (2,6),(3,1),(5,4) solve to 3/2. -/
theorem C10_concrete_cases :
    priceOf (computePrice (trackerOf 0 [(1, -1)])) = some 0 ∧
    priceOf (computePrice (trackerOf 0 [(4, 2)])) = some 3 ∧
    priceOf (computePrice (trackerOf 0 [(-4, -2)])) = some (-3) ∧
    priceOf (computePrice (trackerOf 0 [(2, 6), (3, 1), (5, 4)])) = some (3 / 2) := by
  refine ⟨?_, ?_, ?_, ?_⟩ <;>
    norm_num [trackerOf, insertAll, clearedPR, prInsert, pairWeight, bisectLeft,
      computePrice, pyGet, searchLo, searchHi, walkUp, walkDown, walkUpAux,
      walkDownAux, pickCloser, priceOf] <;>
    (simp only [Int.reduceToNat]; norm_num)

/-- C1 is false as stated, in two distinct ways.  From a fresh tracker,
after inserting the pairs (sell,buy) = (2,1),(3,2),(4,2), `compute_price`
returns 2, but only 1 buy quote lies strictly below 2 while 2 sell quotes
lie strictly above 2 (here the returned price coincides with a registered
quote).  And after inserting (sell,buy) = (1/2,3/5),(3/2,1),(4,3) — the
first pair inverted, buy above sell — `compute_price` returns 7/2 although
3 buy quotes lie strictly below 7/2 and only 1 sell quote lies strictly
above it, even though no registered quote equals the reference 0 or the
returned price 7/2. -/
theorem C1_counterexample :
    (priceOf (computePrice (trackerOf 0 [(2, 1), (3, 2), (4, 2)])) = some 2 ∧
      buyCount [(2, 1), (3, 2), (4, 2)] 2 = 1 ∧
      sellCount [(2, 1), (3, 2), (4, 2)] 2 = 2) ∧
    (priceOf (computePrice (trackerOf 0 [(1 / 2, 3 / 5), (3 / 2, 1), (4, 3)])) =
        some (7 / 2) ∧
      buyCount [((1 : ℚ) / 2, (3 : ℚ) / 5), (3 / 2, 1), (4, 3)] (7 / 2) = 3 ∧
      sellCount [((1 : ℚ) / 2, (3 : ℚ) / 5), (3 / 2, 1), (4, 3)] (7 / 2) = 1 ∧
      (∀ q ∈ quotes [((1 : ℚ) / 2, (3 : ℚ) / 5), (3 / 2, 1), (4, 3)],
        q ≠ 0 ∧ q ≠ 7 / 2)) := by
  refine ⟨⟨?_, ?_, ?_⟩, ?_, ?_, ?_, ?_⟩
  · norm_num [trackerOf, insertAll, clearedPR, prInsert, pairWeight, bisectLeft,
      computePrice, pyGet, searchLo, searchHi, walkUp, walkDown, walkUpAux,
      walkDownAux, pickCloser, priceOf] <;>
      (simp only [Int.reduceToNat]; norm_num)
  · norm_num [buyCount]
  · norm_num [sellCount]
  · norm_num [trackerOf, insertAll, clearedPR, prInsert, pairWeight, bisectLeft,
      computePrice, pyGet, searchLo, searchHi, walkUp, walkDown, walkUpAux,
      walkDownAux, pickCloser, priceOf] <;>
      (simp only [Int.reduceToNat]; norm_num)
  · norm_num [buyCount]
  · norm_num [sellCount]
  · norm_num [quotes]

/-- C3 is false as stated: the state reached from a fresh tracker by
insert(3,2); compute_price() (which returns 5/2); clear_prices();
insert(2,1); insert(3,4) has the four pairwise distinct quotes 1, 2, 3, 4,
yet `compute_price` raises the no-solution error. -/
theorem C3_counterexample :
    computePrice (trackerOf 0 [(3, 2)]) = .ok (5 / 2, ⟨[2, 3], [-1, -1], 5 / 2, 1⟩) ∧
    clearPrices (⟨[2, 3], [-1, -1], 5 / 2, 1⟩ : PRS ℚ) = clearedPR (5 / 2) ∧
    quotes [(2, 1), (3, 4)] = [2, 1, 3, 4] ∧
    computePrice (trackerOf (5 / 2) [(2, 1), (3, 4)]) = .error .noSolution := by
  refine ⟨?_, ?_, ?_, ?_⟩
  · norm_num [trackerOf, insertAll, clearedPR, prInsert, pairWeight, bisectLeft,
      computePrice, pyGet, searchLo, searchHi, walkUp, walkDown, walkUpAux,
      walkDownAux, pickCloser] <;>
      (simp only [Int.reduceToNat]; norm_num)
  · norm_num [clearPrices, clearedPR]
  · norm_num [quotes]
  · norm_num [trackerOf, insertAll, clearedPR, prInsert, pairWeight, bisectLeft,
      computePrice, pyGet, searchLo, searchHi, walkUp, walkDown, walkUpAux,
      walkDownAux, pickCloser] <;>
      (simp only [Int.reduceToNat]; norm_num)

/-- C4 is false as stated: after inserting (2,6),(3,1),(5,4) on a fresh
tracker, the first `compute_price` returns 3/2, and an immediately following
second call (no intervening insert or clear) returns 9/2, because the first
call moved the reference price without refreshing the balance. -/
theorem C4_counterexample :
    computePrice (trackerOf 0 [(2, 6), (3, 1), (5, 4)]) =
      .ok (3 / 2, ⟨[1, 2, 3, 4, 5, 6], [-1, 1, -1, -1, -1, 1], 3 / 2, 1⟩) ∧
    priceOf (computePrice (⟨[1, 2, 3, 4, 5, 6], [-1, 1, -1, -1, -1, 1], 3 / 2, 1⟩ : PRS ℚ)) =
      some (9 / 2) ∧ (3 / 2 : ℚ) ≠ 9 / 2 := by
  refine ⟨?_, ?_, by norm_num⟩
  · norm_num [trackerOf, insertAll, clearedPR, prInsert, pairWeight, bisectLeft,
      computePrice, pyGet, searchLo, searchHi, walkUp, walkDown, walkUpAux,
      walkDownAux, pickCloser] <;>
      (simp only [Int.reduceToNat]; norm_num)
  · norm_num [computePrice, pyGet, searchLo, searchHi, walkUp, walkDown, walkUpAux,
      walkDownAux, pickCloser, bisectLeft, priceOf] <;>
      (simp only [Int.reduceToNat]; norm_num)

/-- C5 is false as stated: after insert(2,−2) on a fresh tracker the balance
is 0, but the sum of the balance deltas at prices strictly below the
reference price 0 is −1. -/
theorem C5_counterexample :
    (trackerOf 0 [(2, -2)]).balance = 0 ∧ diffsBelow (trackerOf 0 [(2, -2)]) = -1 := by
  constructor <;>
    norm_num [trackerOf, insertAll, clearedPR, prInsert, pairWeight, bisectLeft, diffsBelow]

/-- C6 failing inputs evaluated on the embedding: with the reference price 0
below all four registered prices and zero balance (fresh tracker after
insert(2,1); insert(3,4)), `compute_price` wraps around to the opposite end
of the list — it returns (1+4)/2 = 5/2, the midpoint of the smallest and the
largest price, a price at which the (buyers − sellers) imbalance is −2, not
0 — and with the reference price above all registered prices (fresh tracker
after insert(−1,−2); insert(−4,−3)) it raises an IndexError. -/
theorem C6_failing_inputs :
    priceOf (computePrice (trackerOf 0 [(2, 1), (3, 4)])) = some (5 / 2) ∧
    sbal (5 / 2) [(2, 1), (3, 4)] = -2 ∧
    computePrice (trackerOf 0 [(-1, -2), (-4, -3)]) = .error .indexError := by
  refine ⟨?_, ?_, ?_⟩
  · norm_num [trackerOf, insertAll, clearedPR, prInsert, pairWeight, bisectLeft,
      computePrice, pyGet, searchLo, searchHi, walkUp, walkDown, walkUpAux,
      walkDownAux, pickCloser, priceOf] <;>
      (simp only [Int.reduceToNat]; norm_num)
  · norm_num [sbal, contrib, pairWeight]
  · norm_num [trackerOf, insertAll, clearedPR, prInsert, pairWeight, bisectLeft,
      computePrice, pyGet, searchLo, searchHi, walkUp, walkDown, walkUpAux,
      walkDownAux, pickCloser] <;>
      (simp only [Int.reduceToNat]; norm_num)

/-- C7 is false as stated: `insert` performs no validation, so inserting the
pair (inf, inf) on a fresh tracker does not fail and does not leave the
state unchanged — it registers both infinite quotes. -/
theorem C7_counterexample :
    (prInsert prInitF pInf pInf).prices.length = 2 ∧
    prInsert prInitF pInf pInf ≠ prInitF := by
  constructor <;> decide

end MXTM

namespace MXTM

section ListLemmas

variable {α : Type} [LinearOrder α]

theorem bisectLeft_le_length (l : List α) (x : α) : bisectLeft l x ≤ l.length := by
  induction l with
  | nil => simp [bisectLeft]
  | cons y t ih =>
    by_cases h : y < x <;> simp [bisectLeft, h] <;> omega

theorem lt_of_mem_take_bisectLeft {l : List α} {x y : α}
    (hy : y ∈ l.take (bisectLeft l x)) : y < x := by
  induction l with
  | nil => simp [bisectLeft] at hy
  | cons z t ih =>
    by_cases h : z < x
    · simp [bisectLeft, h] at hy
      rcases hy with hy | hy
      · exact hy ▸ h
      · exact ih hy
    · simp [bisectLeft, h] at hy

theorem le_of_mem_drop_bisectLeft {l : List α} {x y : α} (hs : l.Sorted (· ≤ ·))
    (hy : y ∈ l.drop (bisectLeft l x)) : x ≤ y := by
  induction l with
  | nil => simp [bisectLeft] at hy
  | cons z t ih =>
    rw [List.sorted_cons] at hs
    by_cases h : z < x
    · simp only [bisectLeft, if_pos h] at hy
      exact ih hs.2 hy
    · simp only [bisectLeft, if_neg h, List.drop_zero] at hy
      push_neg at h
      rcases List.mem_cons.mp hy with hy | hy
      · exact hy ▸ h
      · exact le_trans h (hs.1 y hy)

theorem bisectLeft_eq_countP {l : List α} (x : α) (hs : l.Sorted (· ≤ ·)) :
    bisectLeft l x = l.countP (fun y => decide (y < x)) := by
  induction l with
  | nil => simp [bisectLeft]
  | cons z t ih =>
    rw [List.sorted_cons] at hs
    by_cases h : z < x
    · simp [bisectLeft, h, List.countP_cons, ih hs.2]
    · have hzero : t.countP (fun y => decide (y < x)) = 0 := by
        rw [List.countP_eq_zero]
        intro y hy
        simp only [decide_eq_true_eq]
        push_neg at h
        exact not_lt.mpr (le_trans h (hs.1 y hy))
      simp [bisectLeft, h, List.countP_cons, hzero]

theorem sorted_insertIdx_bisectLeft {l : List α} (hs : l.Sorted (· ≤ ·)) (x : α) :
    (l.insertIdx (bisectLeft l x) x).Sorted (· ≤ ·) := by
  induction l with
  | nil => simp [bisectLeft]
  | cons z t ih =>
    rw [List.sorted_cons] at hs
    by_cases h : z < x
    · rw [bisectLeft, if_pos h, List.insertIdx_succ_cons, List.sorted_cons]
      refine ⟨?_, ih hs.2⟩
      intro b hb
      rcases (List.mem_insertIdx (bisectLeft_le_length t x)).mp hb with hb | hb
      · exact hb ▸ le_of_lt h
      · exact hs.1 b hb
    · rw [bisectLeft, if_neg h, List.insertIdx_zero, List.sorted_cons]
      push_neg at h
      refine ⟨?_, List.sorted_cons.mpr hs⟩
      intro b hb
      rcases List.mem_cons.mp hb with hb | hb
      · exact hb ▸ h
      · exact le_trans h (hs.1 b hb)

end ListLemmas

section PlainListLemmas

variable {α : Type}

theorem insertIdx_perm {l : List α} {n : ℕ} (hn : n ≤ l.length) (a : α) :
    List.Perm (l.insertIdx n a) (a :: l) := by
  induction n generalizing l with
  | zero => simp
  | succ m ih =>
    cases l with
    | nil => simp at hn
    | cons z t =>
      rw [List.insertIdx_succ_cons]
      exact ((ih (by simpa using hn)).cons z).trans (List.Perm.swap a z t)

theorem zip_insertIdx {β : Type} {l₁ : List α} {l₂ : List β} {n : ℕ} (a : α) (b : β)
    (hn : n ≤ l₁.length) (hlen : l₁.length = l₂.length) :
    (l₁.insertIdx n a).zip (l₂.insertIdx n b) = (l₁.zip l₂).insertIdx n (a, b) := by
  induction n generalizing l₁ l₂ with
  | zero => simp
  | succ m ih =>
    cases l₁ with
    | nil => simp at hn
    | cons x t₁ =>
      cases l₂ with
      | nil => simp at hlen
      | cons y t₂ =>
        simp only [List.insertIdx_succ_cons, List.zip_cons_cons]
        rw [ih (by simpa using hn) (by simpa using hlen)]

end PlainListLemmas

end MXTM

namespace MXTM

/-! ### Structural lemmas about `insert` -/

section InsertLemmas

variable {α : Type} [LinearOrder α]

theorem prInsert_priceRef (s : PRS α) (a b : α) : (prInsert s a b).priceRef = s.priceRef := rfl

theorem prInsert_prices_length {s : PRS α} (h : s.bdiffs.length = s.prices.length) (a b : α) :
    (prInsert s a b).prices.length = s.prices.length + 2 ∧
      (prInsert s a b).bdiffs.length = s.prices.length + 2 := by
  have h1 : bisectLeft s.prices a ≤ s.prices.length := bisectLeft_le_length _ _
  have e1 : (s.prices.insertIdx (bisectLeft s.prices a) a).length = s.prices.length + 1 :=
    List.length_insertIdx _ _ h1
  have h2 : bisectLeft (s.prices.insertIdx (bisectLeft s.prices a) a) b ≤
      s.prices.length + 1 := e1 ▸ bisectLeft_le_length _ _
  constructor
  · show ((s.prices.insertIdx (bisectLeft s.prices a) a).insertIdx
      (bisectLeft (s.prices.insertIdx (bisectLeft s.prices a) a) b) b).length = _
    rw [List.length_insertIdx _ _ (by omega), e1]
  · show ((s.bdiffs.insertIdx (bisectLeft s.prices a) (pairWeight a b)).insertIdx
      (bisectLeft (s.prices.insertIdx (bisectLeft s.prices a) a) b) (pairWeight a b)).length = _
    have e2 : (s.bdiffs.insertIdx (bisectLeft s.prices a) (pairWeight a b)).length =
        s.prices.length + 1 := by
      rw [List.length_insertIdx _ _ (by omega)]; omega
    rw [List.length_insertIdx _ _ (by omega), e2]

theorem prInsert_sorted {s : PRS α} (hs : s.prices.Sorted (· ≤ ·)) (a b : α) :
    (prInsert s a b).prices.Sorted (· ≤ ·) :=
  sorted_insertIdx_bisectLeft (sorted_insertIdx_bisectLeft hs a) b

theorem prInsert_zip_perm {s : PRS α} (h : s.bdiffs.length = s.prices.length) (a b : α) :
    List.Perm ((prInsert s a b).prices.zip (prInsert s a b).bdiffs)
      ((a, pairWeight a b) :: (b, pairWeight a b) :: s.prices.zip s.bdiffs) := by
  have h1 : bisectLeft s.prices a ≤ s.prices.length := bisectLeft_le_length _ _
  have e1 : (s.prices.insertIdx (bisectLeft s.prices a) a).length = s.prices.length + 1 :=
    List.length_insertIdx _ _ h1
  have h2 : bisectLeft (s.prices.insertIdx (bisectLeft s.prices a) a) b ≤
      s.prices.length + 1 := e1 ▸ bisectLeft_le_length _ _
  show List.Perm (((s.prices.insertIdx _ a).insertIdx _ b).zip
    ((s.bdiffs.insertIdx _ (pairWeight a b)).insertIdx _ (pairWeight a b))) _
  rw [zip_insertIdx _ _ (by omega) (by rw [e1, List.length_insertIdx _ _ (by omega)]; omega),
    zip_insertIdx _ _ h1 h.symm]
  have p2 : List.Perm (((s.prices.zip s.bdiffs).insertIdx (bisectLeft s.prices a)
        (a, pairWeight a b)).insertIdx
          (bisectLeft (s.prices.insertIdx (bisectLeft s.prices a) a) b) (b, pairWeight a b))
      ((b, pairWeight a b) :: (s.prices.zip s.bdiffs).insertIdx (bisectLeft s.prices a)
        (a, pairWeight a b)) := by
    refine insertIdx_perm ?_ _
    rw [List.length_insertIdx _ _ (by rw [List.length_zip]; omega), List.length_zip]
    omega
  have p1 : List.Perm ((s.prices.zip s.bdiffs).insertIdx (bisectLeft s.prices a)
      (a, pairWeight a b)) ((a, pairWeight a b) :: s.prices.zip s.bdiffs) :=
    insertIdx_perm (by rw [List.length_zip]; omega) _
  exact p2.trans ((p1.cons _).trans (List.Perm.swap _ _ _))

end InsertLemmas

/-! ### The tracker invariant -/

structure TrackInv (r : ℚ) (ps : List (ℚ × ℚ)) (s : PRS ℚ) : Prop where
  ref_eq : s.priceRef = r
  sorted : s.prices.Sorted (· ≤ ·)
  len_eq : s.bdiffs.length = s.prices.length
  zip_perm : List.Perm (s.prices.zip s.bdiffs) (quotesWeights ps)
  bal_eq : s.balance = sbal r ps

theorem trackInv_cleared (r : ℚ) : TrackInv r [] (clearedPR r) := by
  constructor <;> simp [clearedPR, quotesWeights, sbal]

theorem quotesWeights_append (ps : List (ℚ × ℚ)) (pr : ℚ × ℚ) :
    quotesWeights (ps ++ [pr]) =
      quotesWeights ps ++ [(pr.1, pairWeight pr.1 pr.2), (pr.2, pairWeight pr.1 pr.2)] := by
  simp [quotesWeights]

theorem sbal_append (r : ℚ) (ps : List (ℚ × ℚ)) (pr : ℚ × ℚ) :
    sbal r (ps ++ [pr]) = sbal r ps + contrib r pr := by
  simp [sbal]

theorem prInsert_balance (s : PRS ℚ) (a b : ℚ) :
    (prInsert s a b).balance = s.balance + contrib s.priceRef (a, b) := by
  show (if s.priceRef > b ∧ s.priceRef > a then s.balance + pairWeight a b
    else if s.priceRef < b ∧ s.priceRef < a then s.balance - pairWeight a b
    else s.balance) = _
  simp only [contrib]
  split_ifs <;> omega

theorem trackInv_insert {r : ℚ} {ps : List (ℚ × ℚ)} {s : PRS ℚ}
    (h : TrackInv r ps s) (a b : ℚ) :
    TrackInv r (ps ++ [(a, b)]) (prInsert s a b) := by
  obtain ⟨href, hsort, hlen, hzip, hbal⟩ := h
  refine ⟨href ▸ prInsert_priceRef s a b, prInsert_sorted hsort a b, ?_, ?_, ?_⟩
  · have := prInsert_prices_length hlen a b
    omega
  · refine (prInsert_zip_perm hlen a b).trans ?_
    rw [quotesWeights_append]
    show List.Perm _ (quotesWeights ps ++ [(a, pairWeight a b), (b, pairWeight a b)])
    exact ((hzip.cons _).cons _).trans
      (@List.perm_append_comm _ [(a, pairWeight a b), (b, pairWeight a b)] (quotesWeights ps))
  · rw [prInsert_balance s a b, sbal_append, hbal, href]

theorem trackInv_trackerOf (r : ℚ) (ps : List (ℚ × ℚ)) : TrackInv r ps (trackerOf r ps) := by
  induction ps using List.reverseRecOn with
  | nil => exact trackInv_cleared r
  | append_singleton ps pr ih =>
    have : trackerOf r (ps ++ [pr]) = prInsert (trackerOf r ps) pr.1 pr.2 := by
      simp [trackerOf, insertAll]
    rw [this]
    exact trackInv_insert ih pr.1 pr.2

end MXTM

namespace MXTM

/-! ### Derived facts from the invariant, and the corrected C5 invariant -/

theorem quotes_cons (pr : ℚ × ℚ) (t : List (ℚ × ℚ)) :
    quotes (pr :: t) = pr.1 :: pr.2 :: quotes t := by
  simp [quotes]

theorem quotesWeights_cons (pr : ℚ × ℚ) (t : List (ℚ × ℚ)) :
    quotesWeights (pr :: t) = (pr.1, pairWeight pr.1 pr.2) ::
      (pr.2, pairWeight pr.1 pr.2) :: quotesWeights t := by
  simp [quotesWeights]

theorem quotesWeights_map_fst (ps : List (ℚ × ℚ)) :
    (quotesWeights ps).map Prod.fst = quotes ps := by
  induction ps with
  | nil => simp [quotesWeights, quotes]
  | cons pr t ih => rw [quotesWeights_cons, quotes_cons, List.map_cons, List.map_cons, ih]

theorem prices_perm_quotes {r : ℚ} {ps : List (ℚ × ℚ)} {s : PRS ℚ} (h : TrackInv r ps s) :
    List.Perm s.prices (quotes ps) := by
  have := (h.zip_perm.map Prod.fst)
  rwa [List.map_fst_zip _ _ (le_of_eq h.len_eq.symm), quotesWeights_map_fst] at this

theorem quotesWeights_map_snd_sum (ps : List (ℚ × ℚ)) :
    (((quotesWeights ps).map Prod.snd)).sum = 2 * sumW ps := by
  induction ps with
  | nil => simp [quotesWeights, sumW]
  | cons pr t ih =>
    rw [quotesWeights_cons, List.map_cons, List.map_cons, List.sum_cons, List.sum_cons, ih]
    have : sumW (pr :: t) = pairWeight pr.1 pr.2 + sumW t := by simp [sumW]
    rw [this]
    ring

theorem bdiffs_sum {r : ℚ} {ps : List (ℚ × ℚ)} {s : PRS ℚ} (h : TrackInv r ps s) :
    s.bdiffs.sum = 2 * sumW ps := by
  have hm := h.zip_perm.map Prod.snd
  rw [List.map_snd_zip _ _ (le_of_eq h.len_eq)] at hm
  rw [hm.sum_eq, quotesWeights_map_snd_sum]

/-- Weighted count of the quotes of `ps` lying strictly below `r`. -/
def wBelow (r : ℚ) (ps : List (ℚ × ℚ)) : ℤ :=
  (((quotesWeights ps).filter (fun q => decide (q.1 < r))).map Prod.snd).sum

theorem diffsBelow_eq_wBelow {r : ℚ} {ps : List (ℚ × ℚ)} {s : PRS ℚ} (h : TrackInv r ps s) :
    diffsBelow s = wBelow r ps := by
  have hp := ((h.zip_perm.filter (fun q => decide (q.1 < r))).map Prod.snd).sum_eq
  rw [diffsBelow, h.ref_eq, hp, wBelow]

theorem contrib_eq_of_ne {r : ℚ} {pr : ℚ × ℚ} (h1 : pr.1 ≠ r) (h2 : pr.2 ≠ r) :
    contrib r pr = pairWeight pr.1 pr.2 *
      ((if pr.1 < r then 1 else 0) + (if pr.2 < r then 1 else 0)) - pairWeight pr.1 pr.2 := by
  rcases lt_trichotomy pr.1 r with ha | ha | ha <;> rcases lt_trichotomy pr.2 r with hb | hb | hb <;>
    first
    | exact absurd ha h1
    | exact absurd hb h2
    | (simp only [contrib, pairWeight, ha, hb, if_pos, if_neg, lt_asymm, not_lt_of_gt,
        and_true, and_false, true_and, false_and, if_false, gt_iff_lt]
       split_ifs <;> omega)

theorem sbal_eq_wBelow_sub (r : ℚ) (ps : List (ℚ × ℚ)) (hne : ∀ q ∈ quotes ps, q ≠ r) :
    sbal r ps = wBelow r ps - sumW ps := by
  induction ps with
  | nil => simp [sbal, wBelow, quotesWeights, sumW]
  | cons pr t ih =>
    have h1 : pr.1 ≠ r := hne pr.1 (by rw [quotes_cons]; simp)
    have h2 : pr.2 ≠ r := hne pr.2 (by rw [quotes_cons]; simp)
    have ht : ∀ q ∈ quotes t, q ≠ r := by
      intro q hq
      refine hne q ?_
      rw [quotes_cons]
      exact List.mem_cons_of_mem _ (List.mem_cons_of_mem _ hq)
    have hw : wBelow r (pr :: t) = wBelow r t +
        pairWeight pr.1 pr.2 * ((if pr.1 < r then 1 else 0) + (if pr.2 < r then 1 else 0)) := by
      simp only [wBelow, quotesWeights_cons]
      by_cases ha : pr.1 < r <;> by_cases hb : pr.2 < r <;>
        simp [List.filter_cons, ha, hb] <;> ring
    have hs : sbal r (pr :: t) = contrib r pr + sbal r t := by simp [sbal]
    have hsw : sumW (pr :: t) = pairWeight pr.1 pr.2 + sumW t := by simp [sumW]
    rw [hs, hsw, hw, ih ht, contrib_eq_of_ne h1 h2]
    ring

/-- C5, amended: for every state reached from a clear (with any persisted
reference price `r`) by a sequence of inserts, provided no inserted quote
equals `r`, the balance equals the sum of the `balanceDeltas` at prices
strictly below `r` minus the sum of the per-pair weights.  (The unamended
claim omits the weight-sum correction, and fails after `compute_price`
because that method moves the reference price without refreshing the
balance.) -/
theorem C5_amended (r : ℚ) (ps : List (ℚ × ℚ)) (hne : ∀ q ∈ quotes ps, q ≠ r) :
    (trackerOf r ps).balance = diffsBelow (trackerOf r ps) - sumW ps := by
  have h := trackInv_trackerOf r ps
  rw [h.bal_eq, diffsBelow_eq_wBelow h, sbal_eq_wBelow_sub r ps hne]

/-- Witness for the amended C5 at a concrete state: reference 0,
inserts (2,−2) and (5,4). -/
theorem C5_amended_witness :
    (∀ q ∈ quotes [((2 : ℚ), (-2 : ℚ)), (5, 4)], q ≠ 0) ∧
      (trackerOf 0 [(2, -2), (5, 4)]).balance =
        diffsBelow (trackerOf 0 [(2, -2), (5, 4)]) - sumW [(2, -2), (5, 4)] :=
  ⟨by norm_num [quotes], C5_amended 0 [(2, -2), (5, 4)] (by norm_num [quotes])⟩

end MXTM

namespace MXTM

/-! ### Behaviour of the `_search_price` loops -/

theorem walkUpAux_zero (bd : List ℤ) (fuel i : ℕ) : walkUpAux bd fuel i 0 = (i, 0) := by
  cases fuel <;> simp [walkUpAux]

theorem walkDownAux_zero (bd : List ℤ) (fuel idx : ℕ) : walkDownAux bd fuel idx 0 = (idx, 0) := by
  cases fuel <;> simp [walkDownAux]

theorem walkUpAux_spec (bd : List ℤ) (fuel i : ℕ) (b : ℤ) (hfuel : bd.length ≤ fuel + i) :
    (walkUpAux bd fuel i b).2 = b + ((bd.take (walkUpAux bd fuel i b).1).drop i).sum ∧
      ((walkUpAux bd fuel i b).2 = 0 ∨ bd.length ≤ (walkUpAux bd fuel i b).1) ∧
      i ≤ (walkUpAux bd fuel i b).1 ∧ (walkUpAux bd fuel i b).1 ≤ max bd.length i := by
  induction fuel generalizing i b with
  | zero =>
    have hi : bd.length ≤ i := by omega
    have hnil : (bd.take i).drop i = [] :=
      List.drop_eq_nil_of_le (by rw [List.length_take]; omega)
    simp [walkUpAux, hnil, hi]
  | succ fuel ih =>
    by_cases hg : b ≠ 0 ∧ i < bd.length
    · rw [walkUpAux, if_pos hg]
      obtain ⟨e1, e2, e3, e4⟩ := ih (i + 1) (b + bd.getD i 0) (by omega)
      refine ⟨?_, e2, by omega, by omega⟩
      rw [e1]
      set j := (walkUpAux bd fuel (i + 1) (b + bd.getD i 0)).1 with hj
      have hij : i < j := by omega
      have hjlen : i < (bd.take j).length := by
        rw [List.length_take]
        omega
      have hdg : (bd.take j).drop i = bd.getD i 0 :: (bd.take j).drop (i + 1) := by
        rw [List.drop_eq_getElem_cons hjlen]
        congr 1
        rw [List.getElem_take]
        exact (List.getD_eq_getElem bd 0 (by omega)).symm
      rw [hdg]
      simp
      ring
    · rw [walkUpAux, if_neg hg]
      push_neg at hg
      have hnil : (bd.take i).drop i = [] :=
        List.drop_eq_nil_of_le (by rw [List.length_take]; omega)
      simp only [hnil, List.sum_nil, add_zero, true_and]
      constructor
      · by_cases hb : b = 0
        · left; exact hb
        · right; exact hg hb
      · omega

end MXTM

namespace MXTM

theorem walkDownAux_spec (bd : List ℤ) (fuel idx : ℕ) (b : ℤ) (hfuel : idx ≤ fuel)
    (hidx : idx ≤ bd.length) :
    (walkDownAux bd fuel idx b).2 =
        b - ((bd.take idx).drop (walkDownAux bd fuel idx b).1).sum ∧
      ((walkDownAux bd fuel idx b).2 = 0 ∨ (walkDownAux bd fuel idx b).1 = 0) ∧
      (walkDownAux bd fuel idx b).1 ≤ idx := by
  induction fuel generalizing idx b with
  | zero =>
    have h0 : idx = 0 := by omega
    subst h0
    simp [walkDownAux]
  | succ fuel ih =>
    by_cases hg : b ≠ 0 ∧ 1 ≤ idx ∧ idx - 1 < bd.length
    · rw [walkDownAux, if_pos hg]
      obtain ⟨e1, e2, e3⟩ := ih (idx - 1) (b - bd.getD (idx - 1) 0) (by omega) (by omega)
      refine ⟨?_, e2, by omega⟩
      rw [e1]
      set j := (walkDownAux bd fuel (idx - 1) (b - bd.getD (idx - 1) 0)).1 with hj
      have h1 : idx - 1 < bd.length := hg.2.2
      have htake : bd.take idx = bd.take (idx - 1) ++ [bd.getD (idx - 1) 0] := by
        rw [List.getD_eq_getElem bd 0 h1]
        have h2 := List.take_concat_get' bd (idx - 1) h1
        rw [Nat.sub_add_cancel hg.2.1] at h2
        exact h2.symm
      rw [htake, List.drop_append_of_le_length (by rw [List.length_take]; omega),
        List.sum_append]
      simp
      ring
    · rw [walkDownAux, if_neg hg]
      push_neg at hg
      have hnil : (bd.take idx).drop idx = [] :=
        List.drop_eq_nil_of_le (by rw [List.length_take]; omega)
      simp only [hnil, List.sum_nil, sub_zero, true_and]
      refine ⟨?_, le_refl idx⟩
      by_cases hb : b = 0
      · left; exact hb
      · have h1 := hg hb
        right
        omega

theorem walkUpAux_nonpos (bd : List ℤ) (hd : ∀ d ∈ bd, d ≤ 1) (fuel : ℕ) :
    ∀ (i : ℕ) (b : ℤ), b < 0 → (walkUpAux bd fuel i b).2 ≤ 0 := by
  induction fuel with
  | zero => intro i b hb; simpa [walkUpAux] using le_of_lt hb
  | succ fuel ih =>
    intro i b hb
    by_cases hg : b ≠ 0 ∧ i < bd.length
    · rw [walkUpAux, if_pos hg]
      have hstep : b + bd.getD i 0 ≤ 0 := by
        have : bd.getD i 0 ≤ 1 := by
          rw [List.getD_eq_getElem bd 0 hg.2]
          exact hd _ (List.getElem_mem hg.2)
        omega
      rcases lt_or_eq_of_le hstep with hlt | heq
      · exact ih _ _ hlt
      · rw [heq, walkUpAux_zero]
    · rw [walkUpAux, if_neg hg]
      exact le_of_lt hb

theorem walkUpAux_nonneg (bd : List ℤ) (hd : ∀ d ∈ bd, -1 ≤ d) (fuel : ℕ) :
    ∀ (i : ℕ) (b : ℤ), 0 < b → 0 ≤ (walkUpAux bd fuel i b).2 := by
  induction fuel with
  | zero => intro i b hb; simpa [walkUpAux] using le_of_lt hb
  | succ fuel ih =>
    intro i b hb
    by_cases hg : b ≠ 0 ∧ i < bd.length
    · rw [walkUpAux, if_pos hg]
      have hstep : 0 ≤ b + bd.getD i 0 := by
        have : -1 ≤ bd.getD i 0 := by
          rw [List.getD_eq_getElem bd 0 hg.2]
          exact hd _ (List.getElem_mem hg.2)
        omega
      rcases lt_or_eq_of_le hstep with hlt | heq
      · exact ih _ _ hlt
      · rw [← heq, walkUpAux_zero]
    · rw [walkUpAux, if_neg hg]
      exact le_of_lt hb

theorem walkDownAux_nonneg (bd : List ℤ) (hd : ∀ d ∈ bd, d ≤ 1) (fuel : ℕ) :
    ∀ (idx : ℕ) (b : ℤ), 0 < b → 0 ≤ (walkDownAux bd fuel idx b).2 := by
  induction fuel with
  | zero => intro idx b hb; simpa [walkDownAux] using le_of_lt hb
  | succ fuel ih =>
    intro idx b hb
    by_cases hg : b ≠ 0 ∧ 1 ≤ idx ∧ idx - 1 < bd.length
    · rw [walkDownAux, if_pos hg]
      have hstep : 0 ≤ b - bd.getD (idx - 1) 0 := by
        have : bd.getD (idx - 1) 0 ≤ 1 := by
          rw [List.getD_eq_getElem bd 0 hg.2.2]
          exact hd _ (List.getElem_mem hg.2.2)
        omega
      rcases lt_or_eq_of_le hstep with hlt | heq
      · exact ih _ _ hlt
      · rw [← heq, walkDownAux_zero]
    · rw [walkDownAux, if_neg hg]
      exact le_of_lt hb

theorem walkDownAux_nonpos (bd : List ℤ) (hd : ∀ d ∈ bd, -1 ≤ d) (fuel : ℕ) :
    ∀ (idx : ℕ) (b : ℤ), b < 0 → (walkDownAux bd fuel idx b).2 ≤ 0 := by
  induction fuel with
  | zero => intro idx b hb; simpa [walkDownAux] using le_of_lt hb
  | succ fuel ih =>
    intro idx b hb
    by_cases hg : b ≠ 0 ∧ 1 ≤ idx ∧ idx - 1 < bd.length
    · rw [walkDownAux, if_pos hg]
      have hstep : b - bd.getD (idx - 1) 0 ≤ 0 := by
        have : -1 ≤ bd.getD (idx - 1) 0 := by
          rw [List.getD_eq_getElem bd 0 hg.2.2]
          exact hd _ (List.getElem_mem hg.2.2)
        omega
      rcases lt_or_eq_of_le hstep with hlt | heq
      · exact ih _ _ hlt
      · rw [heq, walkDownAux_zero]
    · rw [walkDownAux, if_neg hg]
      exact le_of_lt hb

end MXTM

namespace MXTM

/-! ### Search characterisation for trackers whose balance deltas are all −1
(the case where every inserted pair is rational, i.e. buy < sell). -/

theorem sum_allNeg1 {l : List ℤ} (h : ∀ d ∈ l, d = -1) : l.sum = -(l.length : ℤ) := by
  induction l with
  | nil => simp
  | cons x t ih =>
    have hx : x = -1 := h x (List.mem_cons_self x t)
    have ht : t.sum = -(t.length : ℤ) := ih (fun d hd => h d (List.mem_cons_of_mem x hd))
    rw [List.sum_cons, hx, ht, List.length_cons]
    push_cast
    ring

theorem slice_sum_allNeg1 {bd : List ℤ} (hd : ∀ d ∈ bd, d = -1) (i j : ℕ)
    (hij : i ≤ j) (hj : j ≤ bd.length) :
    ((bd.take j).drop i).sum = -((j : ℤ) - i) := by
  have hmem : ∀ d ∈ (bd.take j).drop i, d = -1 := fun d hdm =>
    hd d (List.mem_of_mem_take (List.mem_of_mem_drop hdm))
  have hlen : ((bd.take j).drop i).length = j - i := by
    rw [List.length_drop, List.length_take]
    omega
  rw [sum_allNeg1 hmem, hlen]
  omega

theorem walkUp_allNeg1 (s : PRS ℚ) (start : ℕ)
    (hd : ∀ d ∈ s.bdiffs, d = -1) (hstart : start ≤ s.bdiffs.length)
    (hb0 : s.balance ≠ 0) :
    (0 < s.balance ∧ (start : ℤ) + s.balance ≤ s.bdiffs.length ∧
      ((walkUp s.bdiffs start s.balance).1 : ℤ) = start + s.balance ∧
      (walkUp s.bdiffs start s.balance).2 = 0) ∨
    ((walkUp s.bdiffs start s.balance).2 ≠ 0 ∧
      (0 < s.balance ∧ (s.bdiffs.length : ℤ) < start + s.balance ∨ s.balance ≤ 0) ∧
      s.bdiffs.length ≤ (walkUp s.bdiffs start s.balance).1) := by
  obtain ⟨e1, e2, e3, e4⟩ :=
    walkUpAux_spec s.bdiffs s.bdiffs.length start s.balance (by omega)
  have hw : walkUpAux s.bdiffs s.bdiffs.length start s.balance =
      walkUp s.bdiffs start s.balance := rfl
  rw [hw] at e1 e2 e3 e4
  set r := walkUp s.bdiffs start s.balance with hr
  rw [max_eq_left hstart] at e4
  have hr1 : r.1 ≤ s.bdiffs.length := e4
  have hsum : ((s.bdiffs.take r.1).drop start).sum = -((r.1 : ℤ) - start) :=
    slice_sum_allNeg1 hd start r.1 e3 hr1
  rw [hsum] at e1
  rcases eq_or_ne r.2 0 with h0 | h0
  · -- stopped at zero
    rcases le_or_lt s.balance 0 with hble | hbpos
    · exfalso
      omega
    · left
      refine ⟨hbpos, by omega, by omega, h0⟩
  · right
    have hlen : s.bdiffs.length ≤ r.1 := by
      rcases e2 with h | h
      · exact absurd h h0
      · exact h
    refine ⟨h0, ?_, hlen⟩
    rcases le_or_lt s.balance 0 with hble | hbpos
    · right; exact hble
    · left
      refine ⟨hbpos, ?_⟩
      have hnn : 0 ≤ r.2 :=
        walkUpAux_nonneg s.bdiffs (fun d hdm => by rw [hd d hdm]) _ _ _ hbpos
      omega

theorem walkDown_allNeg1 (s : PRS ℚ) (start : ℕ)
    (hd : ∀ d ∈ s.bdiffs, d = -1) (hstart : start ≤ s.bdiffs.length)
    (hb0 : s.balance ≠ 0) :
    (s.balance < 0 ∧ 0 ≤ (start : ℤ) + s.balance ∧
      ((walkDown s.bdiffs start s.balance).1 : ℤ) = start + s.balance ∧
      (walkDown s.bdiffs start s.balance).2 = 0) ∨
    ((walkDown s.bdiffs start s.balance).2 ≠ 0 ∧
      (s.balance < 0 ∧ (start : ℤ) + s.balance < 0 ∨ 0 ≤ s.balance) ∧
      (walkDown s.bdiffs start s.balance).1 = 0) := by
  obtain ⟨e1, e2, e3⟩ := walkDownAux_spec s.bdiffs start start s.balance (le_refl _) hstart
  have hw : walkDownAux s.bdiffs start start s.balance =
      walkDown s.bdiffs start s.balance := rfl
  rw [hw] at e1 e2 e3
  set r := walkDown s.bdiffs start s.balance with hr
  have hsum : ((s.bdiffs.take start).drop r.1).sum = -((start : ℤ) - r.1) :=
    slice_sum_allNeg1 hd r.1 start e3 hstart
  rw [hsum] at e1
  rcases eq_or_ne r.2 0 with h0 | h0
  · rcases le_or_lt 0 s.balance with hble | hbneg
    · exfalso
      omega
    · left
      refine ⟨hbneg, by omega, by omega, h0⟩
  · right
    have hr1 : r.1 = 0 := by
      rcases e2 with h | h
      · exact absurd h h0
      · exact h
    refine ⟨h0, ?_, hr1⟩
    rcases le_or_lt 0 s.balance with hble | hbneg
    · right; exact hble
    · left
      refine ⟨hbneg, ?_⟩
      have hnp : r.2 ≤ 0 :=
        walkDownAux_nonpos s.bdiffs (fun d hdm => by rw [hd d hdm]) _ _ _ hbneg
      omega

end MXTM

namespace MXTM

theorem pyGet_eq_some {l : List ℚ} {k : ℕ} (hk : k < l.length) :
    pyGet l (k : ℤ) = some (l.getD k 0) := by
  rw [pyGet, if_pos (by omega : (0:ℤ) ≤ (k:ℤ))]
  simp [List.getElem?_eq_getElem hk, List.getD_eq_getElem l 0 hk]

theorem pyGet_pred_eq_some {l : List ℚ} {k : ℕ} (h1 : 1 ≤ k) (hk : k ≤ l.length) :
    pyGet l ((k : ℤ) - 1) = some (l.getD (k - 1) 0) := by
  have hpos : (0:ℤ) ≤ (k:ℤ) - 1 := by omega
  have hkn : ((k:ℤ) - 1).toNat = k - 1 := by omega
  have hlt : k - 1 < l.length := by omega
  rw [pyGet, if_pos hpos, hkn]
  simp [List.getElem?_eq_getElem hlt, List.getD_eq_getElem l 0 hlt]

/-- `_search_price(start, 1)` on an all-rational tracker with positive
balance finds the midpoint at `j = start + balance` when that index is
interior. -/
theorem searchHi_allNeg1_success {s : PRS ℚ} {start : ℕ}
    (hd : ∀ d ∈ s.bdiffs, d = -1) (hlen : s.bdiffs.length = s.prices.length)
    (hstart : start ≤ s.bdiffs.length) (hb : 0 < s.balance)
    (hin : (start : ℤ) + s.balance < s.prices.length) :
    ∃ j : ℕ, (j : ℤ) = start + s.balance ∧ 1 ≤ j ∧ j < s.prices.length ∧
      searchHi s start = some (some ((s.prices.getD (j - 1) 0 + s.prices.getD j 0) / 2)) := by
  rcases walkUp_allNeg1 s start hd hstart (by omega) with
    ⟨_, hle, hj, h0⟩ | ⟨h0, hcase, hge⟩
  · refine ⟨(walkUp s.bdiffs start s.balance).1, hj, by omega, by omega, ?_⟩
    rw [searchHi]
    rw [if_pos ⟨h0, by omega⟩]
    rw [pyGet_pred_eq_some (by omega) (by omega), pyGet_eq_some (by omega)]
  · exfalso
    rcases hcase with ⟨_, hover⟩ | hneg <;> omega

/-- `_search_price(start, 1)` on an all-rational tracker fails (returns the
infinity sentinel) when the balance is negative, or positive but out of
range. -/
theorem searchHi_allNeg1_fail {s : PRS ℚ} {start : ℕ}
    (hd : ∀ d ∈ s.bdiffs, d = -1) (hlen : s.bdiffs.length = s.prices.length)
    (hstart : start ≤ s.bdiffs.length) (hb0 : s.balance ≠ 0)
    (hout : s.balance < 0 ∨ (s.prices.length : ℤ) ≤ start + s.balance) :
    searchHi s start = some none := by
  rcases walkUp_allNeg1 s start hd hstart hb0 with
    ⟨hpos, hle, hj, h0⟩ | ⟨h0, hcase, hge⟩
  · rw [searchHi, if_neg]
    rintro ⟨h2, h3⟩
    rcases hout with h | h <;> omega
  · rw [searchHi, if_neg]
    rintro ⟨h2, h3⟩
    omega

/-- `_search_price(start, -1)` on an all-rational tracker with negative
balance finds the midpoint at `j = start + balance` when `j ≥ 1`. -/
theorem searchLo_allNeg1_success {s : PRS ℚ} {start : ℕ}
    (hd : ∀ d ∈ s.bdiffs, d = -1) (hlen : s.bdiffs.length = s.prices.length)
    (hstart : start ≤ s.bdiffs.length) (hb : s.balance < 0)
    (hin : 1 ≤ (start : ℤ) + s.balance) :
    ∃ j : ℕ, (j : ℤ) = start + s.balance ∧ 1 ≤ j ∧ j < s.prices.length ∧
      searchLo s start = some (some ((s.prices.getD j 0 + s.prices.getD (j - 1) 0) / 2)) := by
  rcases walkDown_allNeg1 s start hd hstart (by omega) with
    ⟨_, hle, hj, h0⟩ | ⟨h0, hcase, hge⟩
  · have hjlt : ((walkDown s.bdiffs start s.balance).1 : ℤ) < s.prices.length := by omega
    refine ⟨(walkDown s.bdiffs start s.balance).1, hj, by omega, by omega, ?_⟩
    rw [searchLo]
    rw [if_pos ⟨h0, by omega, by omega⟩]
    rw [pyGet_eq_some (by omega), pyGet_pred_eq_some (by omega) (by omega)]
  · exfalso
    rcases hcase with ⟨_, hunder⟩ | hnn <;> omega

/-- `_search_price(start, -1)` on an all-rational tracker fails when the
balance is positive, or negative but pointing before the list start. -/
theorem searchLo_allNeg1_fail {s : PRS ℚ} {start : ℕ}
    (hd : ∀ d ∈ s.bdiffs, d = -1) (hlen : s.bdiffs.length = s.prices.length)
    (hstart : start ≤ s.bdiffs.length) (hb0 : s.balance ≠ 0)
    (hout : 0 < s.balance ∨ (start : ℤ) + s.balance < 1) :
    searchLo s start = some none := by
  rcases walkDown_allNeg1 s start hd hstart hb0 with
    ⟨hneg, hle, hj, h0⟩ | ⟨h0, hcase, hj0⟩
  · rw [searchLo, if_neg]
    rintro ⟨h2, h3, h4⟩
    rcases hout with h | h <;> omega
  · rw [searchLo, if_neg]
    rintro ⟨h2, h3, h4⟩
    omega

end MXTM

namespace MXTM

/-! ### Search behaviour with general ±1 weights, for the amended C3 -/

theorem mem_quotesWeights {ps : List (ℚ × ℚ)} {x : ℚ × ℤ} (hx : x ∈ quotesWeights ps) :
    ∃ pr ∈ ps, x.2 = pairWeight pr.1 pr.2 := by
  induction ps with
  | nil => simp [quotesWeights] at hx
  | cons pr t ih =>
    rw [quotesWeights_cons] at hx
    rcases List.mem_cons.mp hx with h | hx2
    · exact ⟨pr, List.mem_cons_self pr t, by rw [h]⟩
    · rcases List.mem_cons.mp hx2 with h | hx3
      · exact ⟨pr, List.mem_cons_self pr t, by rw [h]⟩
      · obtain ⟨pr2, hpr2, he⟩ := ih hx3
        exact ⟨pr2, List.mem_cons_of_mem pr hpr2, he⟩

theorem pairWeight_pm1 {α : Type} [LinearOrder α] (a b : α) :
    pairWeight a b = -1 ∨ pairWeight a b = 1 := by
  rw [pairWeight]
  split_ifs <;> simp

theorem bdiffs_pm1 {r : ℚ} {ps : List (ℚ × ℚ)} {s : PRS ℚ} (h : TrackInv r ps s) :
    ∀ d ∈ s.bdiffs, d = -1 ∨ d = 1 := by
  intro d hd
  have hsnd : d ∈ (s.prices.zip s.bdiffs).map Prod.snd := by
    rw [List.map_snd_zip _ _ (le_of_eq h.len_eq)]
    exact hd
  obtain ⟨x, hx, hxd⟩ := List.mem_map.mp hsnd
  obtain ⟨pr, _, he⟩ := mem_quotesWeights (h.zip_perm.mem_iff.mp hx)
  rw [← hxd, he]
  exact pairWeight_pm1 _ _

theorem bdiffs_allNeg1 {r : ℚ} {ps : List (ℚ × ℚ)} {s : PRS ℚ} (h : TrackInv r ps s)
    (hrat : ∀ pr ∈ ps, pr.2 < pr.1) :
    ∀ d ∈ s.bdiffs, d = -1 := by
  intro d hd
  have hsnd : d ∈ (s.prices.zip s.bdiffs).map Prod.snd := by
    rw [List.map_snd_zip _ _ (le_of_eq h.len_eq)]
    exact hd
  obtain ⟨x, hx, hxd⟩ := List.mem_map.mp hsnd
  obtain ⟨pr, hpr, he⟩ := mem_quotesWeights (h.zip_perm.mem_iff.mp hx)
  rw [← hxd, he, pairWeight, if_pos (hrat pr hpr)]

/-- The winning upward search from index 0 (reference strictly below every
quote): with ±1 weights, nonzero balance and total weight sum `−2·balance`,
the upward search returns a finite midpoint. -/
theorem searchHi_pm1_from_zero {s : PRS ℚ}
    (hd : ∀ d ∈ s.bdiffs, d = -1 ∨ d = 1) (hlen : s.bdiffs.length = s.prices.length)
    (hb0 : s.balance ≠ 0) (hsum : s.bdiffs.sum = -2 * s.balance) :
    ∃ p : ℚ, searchHi s 0 = some (some p) := by
  obtain ⟨e1, e2, e3, e4⟩ := walkUpAux_spec s.bdiffs s.bdiffs.length 0 s.balance (by omega)
  have hw : walkUpAux s.bdiffs s.bdiffs.length 0 s.balance =
      walkUp s.bdiffs 0 s.balance := rfl
  rw [hw] at e1 e2 e3 e4
  set r := walkUp s.bdiffs 0 s.balance with hr
  rw [max_eq_left (by omega)] at e4
  have hdrop : (s.bdiffs.take r.1).drop 0 = s.bdiffs.take r.1 := List.drop_zero _
  rw [hdrop] at e1
  have h20 : r.2 = 0 := by
    by_contra h2ne
    have hrlen : r.1 = s.bdiffs.length := by
      rcases e2 with h | h
      · exact absurd h h2ne
      · omega
    rw [hrlen, List.take_length] at e1
    rw [hsum] at e1
    rcases lt_or_gt_of_ne hb0 with hneg | hpos
    · have hnp : r.2 ≤ 0 := walkUpAux_nonpos s.bdiffs
        (fun d hdm => by rcases hd d hdm with h | h <;> omega) _ _ _ hneg
      omega
    · have hnn : 0 ≤ r.2 := walkUpAux_nonneg s.bdiffs
        (fun d hdm => by rcases hd d hdm with h | h <;> omega) _ _ _ hpos
      omega
  have hrlt : r.1 < s.prices.length := by
    by_contra hge
    have hrlen : r.1 = s.bdiffs.length := by omega
    rw [hrlen, List.take_length, hsum] at e1
    omega
  have hr1pos : 1 ≤ r.1 := by
    by_contra h1
    have hr10 : r.1 = 0 := by omega
    rw [hr10] at e1
    simp at e1
    omega
  refine ⟨(s.prices.getD (r.1 - 1) 0 + s.prices.getD r.1 0) / 2, ?_⟩
  rw [searchHi, if_pos ⟨h20, hrlt⟩,
    pyGet_pred_eq_some hr1pos (by omega), pyGet_eq_some hrlt]

/-- The winning downward search from index `len` (reference strictly above
every quote): with ±1 weights, nonzero balance and weight sum `2·balance`,
the downward search returns a finite midpoint. -/
theorem searchLo_pm1_from_len {s : PRS ℚ}
    (hd : ∀ d ∈ s.bdiffs, d = -1 ∨ d = 1) (hlen : s.bdiffs.length = s.prices.length)
    (hb0 : s.balance ≠ 0) (hsum : s.bdiffs.sum = 2 * s.balance) :
    ∃ p : ℚ, searchLo s s.bdiffs.length = some (some p) := by
  obtain ⟨e1, e2, e3⟩ :=
    walkDownAux_spec s.bdiffs s.bdiffs.length s.bdiffs.length s.balance (le_refl _) (le_refl _)
  have hw : walkDownAux s.bdiffs s.bdiffs.length s.bdiffs.length s.balance =
      walkDown s.bdiffs s.bdiffs.length s.balance := rfl
  rw [hw] at e1 e2 e3
  set r := walkDown s.bdiffs s.bdiffs.length s.balance with hr
  rw [List.take_length] at e1
  have h20 : r.2 = 0 := by
    by_contra h2ne
    have hr10 : r.1 = 0 := by
      rcases e2 with h | h
      · exact absurd h h2ne
      · exact h
    rw [hr10, List.drop_zero, hsum] at e1
    rcases lt_or_gt_of_ne hb0 with hneg | hpos
    · have hnp : r.2 ≤ 0 := walkDownAux_nonpos s.bdiffs
        (fun d hdm => by rcases hd d hdm with h | h <;> omega) _ _ _ hneg
      omega
    · have hnn : 0 ≤ r.2 := walkDownAux_nonneg s.bdiffs
        (fun d hdm => by rcases hd d hdm with h | h <;> omega) _ _ _ hpos
      omega
  have hr1pos : 1 ≤ r.1 := by
    by_contra h1
    have hr10 : r.1 = 0 := by omega
    rw [hr10, List.drop_zero, hsum] at e1
    omega
  have hr1lt : r.1 < s.prices.length := by
    rcases lt_or_ge r.1 s.prices.length with h | h
    · exact h
    · exfalso
      have hrlen : r.1 = s.bdiffs.length := by omega
      have hs0 : (s.bdiffs.drop r.1).sum = 0 := by
        rw [hrlen, List.drop_length]
        rfl
      omega
  refine ⟨(s.prices.getD r.1 0 + s.prices.getD (r.1 - 1) 0) / 2, ?_⟩
  rw [searchLo, ← hr, if_pos ⟨h20, hr1pos, by omega⟩,
    pyGet_eq_some hr1lt, pyGet_pred_eq_some hr1pos (by omega)]

/-- The upward search started at the end of the list gives up at once when
the balance is nonzero. -/
theorem walkUpAux_stuck (bd : List ℤ) (fuel i : ℕ) (b : ℤ) (h : bd.length ≤ i) :
    walkUpAux bd fuel i b = (i, b) := by
  cases fuel with
  | zero => rw [walkUpAux]
  | succ m =>
    rw [walkUpAux, if_neg]
    rintro ⟨h1, h2⟩
    omega

theorem walkDownAux_stuck_zero (bd : List ℤ) (fuel : ℕ) (b : ℤ) :
    walkDownAux bd fuel 0 b = (0, b) := by
  cases fuel with
  | zero => rw [walkDownAux]
  | succ m =>
    rw [walkDownAux, if_neg]
    rintro ⟨h1, h2, h3⟩
    omega

/-- The upward search started at the end of the list gives up at once when
the balance is nonzero. -/
theorem searchHi_from_len_fail (s : PRS ℚ) (hb0 : s.balance ≠ 0) :
    searchHi s s.bdiffs.length = some none := by
  have hwalk : walkUp s.bdiffs s.bdiffs.length s.balance = (s.bdiffs.length, s.balance) :=
    walkUpAux_stuck _ _ _ _ (le_refl _)
  rw [searchHi, hwalk, if_neg]
  rintro ⟨h1, h2⟩
  exact hb0 h1

/-- The downward search started at index 0 gives up at once when the balance
is nonzero. -/
theorem searchLo_from_zero_fail (s : PRS ℚ) (hb0 : s.balance ≠ 0) :
    searchLo s 0 = some none := by
  have hwalk : walkDown s.bdiffs 0 s.balance = (0, s.balance) :=
    walkDownAux_stuck_zero _ _ _
  rw [searchLo, hwalk, if_neg]
  rintro ⟨h1, h2, h3⟩
  exact hb0 h1

end MXTM

namespace MXTM

/-! ### Shape lemmas for `compute_price`, and the amended C3 -/

theorem computePrice_bal0 {s : PRS ℚ} {a c : ℚ} (h1 : 0 < s.prices.length)
    (hb : s.balance = 0)
    (ha : pyGet s.prices ((bisectLeft s.prices s.priceRef : ℤ) - 1) = some a)
    (hc : pyGet s.prices ((bisectLeft s.prices s.priceRef : ℤ)) = some c) :
    computePrice s = .ok ((a + c) / 2, { s with priceRef := (a + c) / 2 }) := by
  rw [computePrice, if_neg (by omega), if_pos hb, ha, hc]

theorem computePrice_bal0_err {s : PRS ℚ} {a : ℚ} (h1 : 0 < s.prices.length)
    (hb : s.balance = 0)
    (ha : pyGet s.prices ((bisectLeft s.prices s.priceRef : ℤ) - 1) = some a)
    (hc : pyGet s.prices ((bisectLeft s.prices s.priceRef : ℤ)) = none) :
    computePrice s = .error .indexError := by
  rw [computePrice, if_neg (by omega), if_pos hb, ha, hc]

theorem computePrice_search {s : PRS ℚ} {plo phi : Option ℚ} (h1 : 0 < s.prices.length)
    (hb : s.balance ≠ 0)
    (hlo : searchLo s (bisectLeft s.prices s.priceRef) = some plo)
    (hhi : searchHi s (bisectLeft s.prices s.priceRef) = some phi) :
    computePrice s =
      (match pickCloser s.priceRef plo phi with
        | none => .error .noSolution
        | some p => .ok (p, { s with priceRef := p })) := by
  rw [computePrice, if_neg (by omega), if_neg hb, hlo, hhi]

theorem bisectLeft_eq_zero {α : Type} [LinearOrder α] {l : List α} {x : α}
    (h : ∀ y ∈ l, ¬y < x) : bisectLeft l x = 0 := by
  cases l with
  | nil => rfl
  | cons z t => rw [bisectLeft, if_neg (h z (List.mem_cons_self z t))]

theorem bisectLeft_eq_length {α : Type} [LinearOrder α] {l : List α} {x : α}
    (h : ∀ y ∈ l, y < x) : bisectLeft l x = l.length := by
  induction l with
  | nil => rfl
  | cons z t ih =>
    rw [bisectLeft, if_pos (h z (List.mem_cons_self z t)), List.length_cons,
      ih (fun y hy => h y (List.mem_cons_of_mem z hy))]

theorem sbal_below {r : ℚ} {ps : List (ℚ × ℚ)} (h : ∀ q ∈ quotes ps, r < q) :
    sbal r ps = -sumW ps := by
  induction ps with
  | nil => simp [sbal, sumW]
  | cons pr t ih =>
    have h1 : r < pr.1 := h pr.1 (by rw [quotes_cons]; simp)
    have h2 : r < pr.2 := h pr.2 (by rw [quotes_cons]; simp)
    have ht : ∀ q ∈ quotes t, r < q := fun q hq => h q (by
      rw [quotes_cons]
      exact List.mem_cons_of_mem _ (List.mem_cons_of_mem _ hq))
    have hc : contrib r pr = -pairWeight pr.1 pr.2 := by
      rw [contrib, if_neg (by push_neg; intro hgt; exact absurd hgt (not_lt_of_gt h2)),
        if_pos ⟨h2, h1⟩]
    have hs : sbal r (pr :: t) = contrib r pr + sbal r t := by simp [sbal]
    have hw : sumW (pr :: t) = pairWeight pr.1 pr.2 + sumW t := by simp [sumW]
    rw [hs, hw, hc, ih ht]
    ring

theorem sbal_above {r : ℚ} {ps : List (ℚ × ℚ)} (h : ∀ q ∈ quotes ps, q < r) :
    sbal r ps = sumW ps := by
  induction ps with
  | nil => simp [sbal, sumW]
  | cons pr t ih =>
    have h1 : pr.1 < r := h pr.1 (by rw [quotes_cons]; simp)
    have h2 : pr.2 < r := h pr.2 (by rw [quotes_cons]; simp)
    have ht : ∀ q ∈ quotes t, q < r := fun q hq => h q (by
      rw [quotes_cons]
      exact List.mem_cons_of_mem _ (List.mem_cons_of_mem _ hq))
    have hc : contrib r pr = pairWeight pr.1 pr.2 := by
      rw [contrib, if_pos ⟨h2, h1⟩]
    have hs : sbal r (pr :: t) = contrib r pr + sbal r t := by simp [sbal]
    have hw : sumW (pr :: t) = pairWeight pr.1 pr.2 + sumW t := by simp [sumW]
    rw [hs, hw, hc, ih ht]

theorem quotes_length (ps : List (ℚ × ℚ)) : (quotes ps).length = 2 * ps.length := by
  induction ps with
  | nil => simp [quotes]
  | cons pr t ih =>
    rw [quotes_cons]
    simp only [List.length_cons, ih]
    omega

theorem tracker_prices_length (r : ℚ) (ps : List (ℚ × ℚ)) :
    (trackerOf r ps).prices.length = 2 * ps.length := by
  rw [(prices_perm_quotes (trackInv_trackerOf r ps)).length_eq, quotes_length]

theorem pyGet_neg_one {l : List ℚ} (h : 0 < l.length) :
    pyGet l (-1) = some (l.getD (l.length - 1) 0) := by
  have h2 : (0:ℤ) ≤ -1 + l.length := by omega
  have h3 : ((-1 : ℤ) + l.length).toNat = l.length - 1 := by omega
  have h4 : l.length - 1 < l.length := by omega
  rw [pyGet, if_neg (by omega), if_pos h2, h3]
  simp [List.getElem?_eq_getElem h4, List.getD_eq_getElem l 0 h4]

/-- C3, amended: `compute_price` never raises the no-solution error when the
persisted reference price lies strictly below all quotes inserted since the
last clear, or strictly above all of them.  (As stated the claim is false:
with the reference price strictly inside the quote range the search can fail
in both directions even when the quotes are pairwise distinct, as
`C3_counterexample` shows.) -/
theorem C3_amended (r : ℚ) (ps : List (ℚ × ℚ))
    (h : (∀ q ∈ quotes ps, r < q) ∨ (∀ q ∈ quotes ps, q < r)) :
    computePrice (trackerOf r ps) ≠ .error .noSolution := by
  have inv := trackInv_trackerOf r ps
  set s := trackerOf r ps with hs
  rcases Nat.eq_zero_or_pos s.prices.length with hlen0 | hlen0
  · rw [computePrice, if_pos (by omega)]
    intro hcontra
    exact absurd (Except.error.inj hcontra) (by intro h2; cases h2)
  have hperm := prices_perm_quotes inv
  have hsum2 : s.bdiffs.sum = 2 * sumW ps := bdiffs_sum inv
  rcases h with hbelow | habove
  · -- reference strictly below every quote
    have hidx : bisectLeft s.prices s.priceRef = 0 := by
      rw [inv.ref_eq]
      refine bisectLeft_eq_zero ?_
      intro y hy
      exact not_lt_of_gt (hbelow y (hperm.mem_iff.mp hy))
    have hbal : s.balance = -sumW ps := by rw [inv.bal_eq, sbal_below hbelow]
    rcases eq_or_ne s.balance 0 with hb0 | hb0
    · obtain ⟨a, ha⟩ : ∃ a, pyGet s.prices ((bisectLeft s.prices s.priceRef : ℤ) - 1) =
          some a := by
        rw [hidx]
        exact ⟨_, pyGet_neg_one hlen0⟩
      obtain ⟨c, hc⟩ : ∃ c, pyGet s.prices ((bisectLeft s.prices s.priceRef : ℤ)) = some c := by
        rw [hidx]
        exact ⟨_, pyGet_eq_some (by omega)⟩
      rw [computePrice_bal0 hlen0 hb0 ha hc]
      intro hcontra
      cases hcontra
    · have hlo : searchLo s (bisectLeft s.prices s.priceRef) = some none := by
        rw [hidx]
        exact searchLo_from_zero_fail s hb0
      obtain ⟨p, hhi⟩ := searchHi_pm1_from_zero (bdiffs_pm1 inv) inv.len_eq hb0
        (by rw [hsum2, hbal]; ring)
      have hhi2 : searchHi s (bisectLeft s.prices s.priceRef) = some (some p) := by
        rw [hidx]
        exact hhi
      rw [computePrice_search hlen0 hb0 hlo hhi2]
      intro hcontra
      cases hcontra
  · -- reference strictly above every quote
    have hidx : bisectLeft s.prices s.priceRef = s.prices.length := by
      rw [inv.ref_eq]
      refine bisectLeft_eq_length ?_
      intro y hy
      exact habove y (hperm.mem_iff.mp hy)
    have hbal : s.balance = sumW ps := by rw [inv.bal_eq, sbal_above habove]
    rcases eq_or_ne s.balance 0 with hb0 | hb0
    · obtain ⟨a, ha⟩ : ∃ a, pyGet s.prices ((bisectLeft s.prices s.priceRef : ℤ) - 1) =
          some a := by
        rw [hidx]
        exact ⟨_, pyGet_pred_eq_some (by omega) (by omega)⟩
      have hc : pyGet s.prices ((bisectLeft s.prices s.priceRef : ℤ)) = none := by
        rw [hidx, pyGet, if_pos (by omega)]
        simp
      rw [computePrice_bal0_err hlen0 hb0 ha hc]
      intro hcontra
      exact absurd (Except.error.inj hcontra) (by intro h2; cases h2)
    · have hhi : searchHi s (bisectLeft s.prices s.priceRef) = some none := by
        rw [hidx, ← inv.len_eq]
        exact searchHi_from_len_fail s hb0
      obtain ⟨p, hlo⟩ := searchLo_pm1_from_len (bdiffs_pm1 inv) inv.len_eq hb0
        (by rw [hsum2, hbal])
      have hlo2 : searchLo s (bisectLeft s.prices s.priceRef) = some (some p) := by
        rw [hidx, ← inv.len_eq]
        exact hlo
      rw [computePrice_search hlen0 hb0 hlo2 hhi]
      intro hcontra
      cases hcontra

/-- Witness for the amended C3: a fresh tracker (reference 0) with the
identical pair (5,5) inserted twice; all quotes lie strictly above 0, and
`compute_price` indeed does not raise the no-solution error. -/
theorem C3_amended_witness :
    (∀ q ∈ quotes [((5 : ℚ), (5 : ℚ)), (5, 5)], (0 : ℚ) < q) ∧
      computePrice (trackerOf 0 [(5, 5), (5, 5)]) ≠ .error .noSolution :=
  ⟨by norm_num [quotes], C3_amended 0 [(5, 5), (5, 5)] (Or.inl (by norm_num [quotes]))⟩

end MXTM

namespace MXTM

/-! ### Counting quotes below a midpoint, and the amended C4 (idempotence) -/

theorem countP_lt_of_cut {l : List ℚ} {j : ℕ} {p : ℚ} (hj : j ≤ l.length)
    (hlow : ∀ y ∈ l.take j, y < p) (hhigh : ∀ y ∈ l.drop j, ¬y < p) :
    l.countP (fun y => decide (y < p)) = j := by
  conv_lhs => rw [← List.take_append_drop j l]
  rw [List.countP_append]
  have h1 : (l.take j).countP (fun y => decide (y < p)) = (l.take j).length :=
    List.countP_eq_length.mpr (fun a ha => decide_eq_true (hlow a ha))
  have h2 : (l.drop j).countP (fun y => decide (y < p)) = 0 :=
    List.countP_eq_zero.mpr (fun a ha => by simpa using hhigh a ha)
  rw [h1, h2, List.length_take]
  omega

theorem sorted_take_le {l : List ℚ} (hs : l.Sorted (· ≤ ·)) :
    ∀ (j : ℕ), j ≤ l.length → ∀ y ∈ l.take j, y ≤ l.getD (j - 1) 0 := by
  induction l with
  | nil => intro j hj y hy; simp at hy
  | cons z t ih =>
    intro j hj y hy
    rw [List.sorted_cons] at hs
    cases j with
    | zero => simp at hy
    | succ k =>
      rw [List.take_succ_cons] at hy
      rcases List.mem_cons.mp hy with hz | hyt
      · subst hz
        cases k with
        | zero => simp
        | succ m =>
          have hmem : t.getD m 0 ∈ t := by
            have hm : m < t.length := by simpa using hj
            rw [List.getD_eq_getElem t 0 hm]
            exact List.getElem_mem hm
          simpa using hs.1 _ hmem
      · cases k with
        | zero => simp at hyt
        | succ m =>
          have := ih hs.2 (m + 1) (by simpa using hj) y hyt
          simpa using this

theorem sorted_drop_ge {l : List ℚ} (hs : l.Sorted (· ≤ ·)) {j : ℕ} (hj : j < l.length) :
    ∀ y ∈ l.drop j, l.getD j 0 ≤ y := by
  intro y hy
  rw [List.drop_eq_getElem_cons hj] at hy
  have hds : (l.drop j).Sorted (· ≤ ·) := hs.drop
  rw [List.drop_eq_getElem_cons hj, List.sorted_cons] at hds
  rcases List.mem_cons.mp hy with h | h
  · rw [List.getD_eq_getElem l 0 hj, h]
  · rw [List.getD_eq_getElem l 0 hj]
    exact hds.1 y h

/-- Midpoint counting: if `a = prices[j-1] < p < c = prices[j]` on a sorted
list, then `bisect_left(prices, p) = j` (equivalently, exactly `j` entries
lie strictly below `p`). -/
theorem bisectLeft_at_midgap {l : List ℚ} (hs : l.Sorted (· ≤ ·)) {j : ℕ} {p : ℚ}
    (hj1 : 1 ≤ j) (hj2 : j < l.length)
    (ha : l.getD (j - 1) 0 < p) (hc : p < l.getD j 0) :
    bisectLeft l p = j := by
  rw [bisectLeft_eq_countP p hs]
  refine countP_lt_of_cut (by omega) ?_ ?_
  · intro y hy
    exact lt_of_le_of_lt (sorted_take_le hs j (by omega) y hy) ha
  · intro y hy
    exact not_lt_of_gt (lt_of_lt_of_le hc (sorted_drop_ge hs hj2 y hy))

/-- C4, amended: if the tracker's balance is 0 at the time of the call, the
reference position is interior (`1 ≤ idx` and the `idx` access succeeds) and
the two surrounding prices are distinct, then a second `compute_price` call
with no intervening insert or clear returns the same price.  (Without these
conditions the second call can return a different price, as
`C4_counterexample` shows, because `compute_price` moves the reference price
without refreshing the balance.) -/
theorem C4_amended (s : PRS ℚ) (a c p : ℚ) (s1 : PRS ℚ)
    (hsort : s.prices.Sorted (· ≤ ·)) (hb : s.balance = 0)
    (hidx1 : 1 ≤ bisectLeft s.prices s.priceRef)
    (ha : pyGet s.prices ((bisectLeft s.prices s.priceRef : ℤ) - 1) = some a)
    (hc : pyGet s.prices ((bisectLeft s.prices s.priceRef : ℤ)) = some c)
    (hac : a < c)
    (hcall : computePrice s = .ok (p, s1)) :
    computePrice s1 = .ok (p, s1) := by
  set idx := bisectLeft s.prices s.priceRef with hidxdef
  have hidx2 : idx < s.prices.length := by
    by_contra hgt
    rw [pyGet, if_pos (by omega)] at hc
    rw [List.getElem?_eq_none (by omega)] at hc
    cases hc
  have hlen0 : 0 < s.prices.length := by omega
  have heval := computePrice_bal0 hlen0 hb ha hc
  rw [hcall] at heval
  have hpq : p = (a + c) / 2 := by
    have := (Except.ok.inj heval)
    exact congrArg Prod.fst this
  have hs1 : s1 = { s with priceRef := p } := by
    have := (Except.ok.inj heval)
    have h2 := congrArg Prod.snd this
    simp at h2
    rw [h2, ← hpq]
  have hav : a = s.prices.getD (idx - 1) 0 := by
    rw [pyGet_pred_eq_some hidx1 (by omega)] at ha
    exact (Option.some.inj ha).symm
  have hcv : c = s.prices.getD idx 0 := by
    rw [pyGet_eq_some hidx2] at hc
    exact (Option.some.inj hc).symm
  have hap : a < p := by
    rw [hpq]
    linarith
  have hpc : p < c := by
    rw [hpq]
    linarith
  have hidxp : bisectLeft s.prices p = idx :=
    bisectLeft_at_midgap hsort hidx1 hidx2 (hav ▸ hap) (hcv ▸ hpc)
  have hs1prices : s1.prices = s.prices := by rw [hs1]
  have hs1bal : s1.balance = 0 := by rw [hs1]; exact hb
  have hs1ref : s1.priceRef = p := by rw [hs1]
  have ha1 : pyGet s1.prices ((bisectLeft s1.prices s1.priceRef : ℤ) - 1) = some a := by
    rw [hs1prices, hs1ref, hidxp, pyGet_pred_eq_some hidx1 (by omega)]
    rw [hav]
  have hc1 : pyGet s1.prices ((bisectLeft s1.prices s1.priceRef : ℤ)) = some c := by
    rw [hs1prices, hs1ref, hidxp, pyGet_eq_some hidx2]
    rw [hcv]
  have heval1 := computePrice_bal0 (by rw [hs1prices]; omega) hs1bal ha1 hc1
  rw [heval1, ← hpq]
  have hfix : ({ s1 with priceRef := p } : PRS ℚ) = s1 := by
    rw [hs1]
  rw [hfix]

/-- Witness for the amended C4: the tracker built by insert(1,−1) from a
fresh tracker; the first call returns 0 and so does a second call. -/
theorem C4_amended_witness :
    (trackerOf 0 [(1, -1)]).prices.Sorted (· ≤ ·) ∧
      computePrice (⟨[-1, 1], [-1, -1], 0, 0⟩ : PRS ℚ) = .ok (0, ⟨[-1, 1], [-1, -1], 0, 0⟩) := by
  constructor
  · exact (trackInv_trackerOf 0 [(1, -1)]).sorted
  · have h0 : computePrice (⟨[-1, 1], [-1, -1], 0, 0⟩ : PRS ℚ) =
        .ok (0, ⟨[-1, 1], [-1, -1], 0, 0⟩) := by
      norm_num [computePrice, bisectLeft, pyGet, Int.reduceToNat]
    exact C4_amended ⟨[-1, 1], [-1, -1], 0, 0⟩ (-1) 1 0 ⟨[-1, 1], [-1, -1], 0, 0⟩
      (by norm_num [List.sorted_cons]) rfl
      (by norm_num [bisectLeft])
      (by norm_num [bisectLeft, pyGet, Int.reduceToNat])
      (by norm_num [bisectLeft, pyGet, Int.reduceToNat])
      (by norm_num) h0

end MXTM

namespace MXTM

/-! ### The balance-count identity for rational pairs, and the amended C1 -/

theorem contrib_rational_indicator {pr : ℚ × ℚ} (hrat : pr.2 < pr.1) {v : ℚ}
    (h1 : v ≠ pr.1) (h2 : v ≠ pr.2) :
    contrib v pr = (if v < pr.2 then 1 else 0) - (if pr.1 < v then 1 else 0) := by
  have hw : pairWeight pr.1 pr.2 = -1 := by rw [pairWeight, if_pos hrat]
  rw [contrib, hw]
  rcases lt_trichotomy v pr.2 with hb | hb | hb
  · rw [if_neg (by push_neg; intro hgt; exact absurd hgt (not_lt_of_gt hb)),
      if_pos ⟨hb, lt_trans hb hrat⟩, if_pos hb, if_neg (not_lt_of_gt (lt_trans hb hrat))]
    norm_num
  · exact absurd hb h2
  · rcases lt_trichotomy v pr.1 with ha | ha | ha
    · rw [if_neg (by rintro ⟨hgt2, hgt1⟩; exact absurd hgt1 (not_lt_of_gt ha)),
        if_neg (by rintro ⟨hlt2, hlt1⟩; exact absurd hlt2 (not_lt_of_gt hb)),
        if_neg (not_lt_of_gt hb), if_neg (not_lt_of_gt ha)]
      norm_num
    · exact absurd ha h1
    · rw [if_pos ⟨hb, ha⟩, if_neg (not_lt_of_gt hb), if_pos ha]
      norm_num

theorem contrib_rational_indicator2 {pr : ℚ × ℚ} (hrat : pr.2 < pr.1) {v : ℚ}
    (h1 : v ≠ pr.1) (h2 : v ≠ pr.2) :
    contrib v pr = 1 - (if pr.2 < v then 1 else 0) - (if pr.1 < v then 1 else 0) := by
  rw [contrib_rational_indicator hrat h1 h2]
  have hflip : (if v < pr.2 then (1:ℤ) else 0) = 1 - (if pr.2 < v then 1 else 0) := by
    rcases lt_trichotomy v pr.2 with h | h | h
    · rw [if_pos h, if_neg (not_lt_of_gt h)]
      norm_num
    · exact absurd h h2
    · rw [if_neg (not_lt_of_gt h), if_pos h]
      norm_num
  rw [hflip]

theorem sbal_sub_count {ps : List (ℚ × ℚ)} (hrat : ∀ pr ∈ ps, pr.2 < pr.1) {x r : ℚ}
    (hx : ∀ q ∈ quotes ps, q ≠ x) (hr : ∀ q ∈ quotes ps, q ≠ r) :
    sbal x ps - sbal r ps =
      (((quotes ps).countP (fun q => decide (q < r))) : ℤ) -
        (((quotes ps).countP (fun q => decide (q < x))) : ℤ) := by
  induction ps with
  | nil => simp [sbal, quotes]
  | cons pr t ih =>
    have hprr : ∀ q ∈ quotes t, q ≠ r := fun q hq => hr q (by
      rw [quotes_cons]; exact List.mem_cons_of_mem _ (List.mem_cons_of_mem _ hq))
    have hprx : ∀ q ∈ quotes t, q ≠ x := fun q hq => hx q (by
      rw [quotes_cons]; exact List.mem_cons_of_mem _ (List.mem_cons_of_mem _ hq))
    have hratt : ∀ pr2 ∈ t, pr2.2 < pr2.1 := fun pr2 hpr2 =>
      hrat pr2 (List.mem_cons_of_mem pr hpr2)
    have hratp : pr.2 < pr.1 := hrat pr (List.mem_cons_self pr t)
    have hx1 : x ≠ pr.1 := fun he => hx pr.1 (by rw [quotes_cons]; simp) he.symm
    have hx2 : x ≠ pr.2 := fun he => hx pr.2 (by rw [quotes_cons]; simp) he.symm
    have hr1 : r ≠ pr.1 := fun he => hr pr.1 (by rw [quotes_cons]; simp) he.symm
    have hr2 : r ≠ pr.2 := fun he => hr pr.2 (by rw [quotes_cons]; simp) he.symm
    have hsx : sbal x (pr :: t) = contrib x pr + sbal x t := by simp [sbal]
    have hsr : sbal r (pr :: t) = contrib r pr + sbal r t := by simp [sbal]
    have hcount : ∀ v : ℚ, (quotes (pr :: t)).countP (fun q => decide (q < v)) =
        ((if pr.1 < v then 1 else 0) + (if pr.2 < v then 1 else 0) : ℕ) +
          (quotes t).countP (fun q => decide (q < v)) := by
      intro v
      rw [quotes_cons, List.countP_cons, List.countP_cons]
      by_cases hA : pr.1 < v <;> by_cases hB : pr.2 < v <;> simp [hA, hB] <;> omega
    rw [hsx, hsr, hcount r, hcount x,
      contrib_rational_indicator2 hratp hx1 hx2, contrib_rational_indicator2 hratp hr1 hr2]
    have IH := ih hratt hprx hprr
    push_cast
    by_cases hA : pr.1 < x <;> by_cases hB : pr.2 < x <;>
      by_cases hC : pr.1 < r <;> by_cases hD : pr.2 < r <;>
      simp only [hA, hB, hC, hD, if_true, if_false] <;> push_cast <;> linarith [IH]

theorem counts_sub_eq_neg_sbal {ps : List (ℚ × ℚ)} (hrat : ∀ pr ∈ ps, pr.2 < pr.1) {p : ℚ}
    (hne : ∀ q ∈ quotes ps, q ≠ p) :
    (buyCount ps p : ℤ) - (sellCount ps p : ℤ) = -sbal p ps := by
  induction ps with
  | nil => simp [buyCount, sellCount, sbal]
  | cons pr t ih =>
    have hnet : ∀ q ∈ quotes t, q ≠ p := fun q hq => hne q (by
      rw [quotes_cons]; exact List.mem_cons_of_mem _ (List.mem_cons_of_mem _ hq))
    have hratt : ∀ pr2 ∈ t, pr2.2 < pr2.1 := fun pr2 hpr2 =>
      hrat pr2 (List.mem_cons_of_mem pr hpr2)
    have hratp : pr.2 < pr.1 := hrat pr (List.mem_cons_self pr t)
    have hp1 : p ≠ pr.1 := fun he => hne pr.1 (by rw [quotes_cons]; simp) he.symm
    have hp2 : p ≠ pr.2 := fun he => hne pr.2 (by rw [quotes_cons]; simp) he.symm
    have hbc : buyCount (pr :: t) p = ((if pr.2 < p then 1 else 0) : ℕ) + buyCount t p := by
      rw [buyCount, buyCount, List.filter_cons]
      by_cases hB : pr.2 < p <;> simp [hB] <;> omega
    have hsc : sellCount (pr :: t) p = ((if p < pr.1 then 1 else 0) : ℕ) + sellCount t p := by
      rw [sellCount, sellCount, List.filter_cons]
      by_cases hS : p < pr.1 <;> simp [hS, gt_iff_lt] <;> omega
    have hsb : sbal p (pr :: t) = contrib p pr + sbal p t := by simp [sbal]
    rw [hbc, hsc, hsb, contrib_rational_indicator2 hratp hp1 hp2]
    have hiht := ih hratt hnet
    have hflip2 : (if p < pr.1 then (1:ℤ) else 0) = 1 - (if pr.1 < p then 1 else 0) := by
      rcases lt_trichotomy p pr.1 with h | h | h
      · rw [if_pos h, if_neg (not_lt_of_gt h)]
        norm_num
      · exact absurd h hp1
      · rw [if_neg (not_lt_of_gt h), if_pos h]
        norm_num
    push_cast
    rw [hflip2]
    by_cases hA : pr.1 < p <;> by_cases hB : pr.2 < p <;>
      simp only [hA, hB, if_true, if_false] <;> push_cast <;> linarith [hiht]

theorem sumW_rational {ps : List (ℚ × ℚ)} (hrat : ∀ pr ∈ ps, pr.2 < pr.1) :
    sumW ps = -(ps.length : ℤ) := by
  induction ps with
  | nil => simp [sumW]
  | cons pr t ih =>
    have hw : pairWeight pr.1 pr.2 = -1 := by
      rw [pairWeight, if_pos (hrat pr (List.mem_cons_self pr t))]
    have hsw : sumW (pr :: t) = pairWeight pr.1 pr.2 + sumW t := by simp [sumW]
    rw [hsw, hw, ih (fun pr2 hpr2 => hrat pr2 (List.mem_cons_of_mem pr hpr2)),
      List.length_cons]
    push_cast
    ring

theorem sorted_getD_le {l : List ℚ} (hs : l.Sorted (· ≤ ·)) {j1 j2 : ℕ}
    (h12 : j1 ≤ j2) (h2 : j2 < l.length) :
    l.getD j1 0 ≤ l.getD j2 0 := by
  rw [List.getD_eq_getElem l 0 (by omega), List.getD_eq_getElem l 0 h2]
  have := hs.rel_get_of_le (a := ⟨j1, by omega⟩) (b := ⟨j2, h2⟩) (by simpa using h12)
  simpa using this

end MXTM

namespace MXTM

theorem C1_core (r : ℚ) (ps : List (ℚ × ℚ)) (p : ℚ) (j : ℕ)
    (hrat : ∀ pr ∈ ps, pr.2 < pr.1)
    (hner : ∀ q ∈ quotes ps, q ≠ r)
    (hnep : ∀ q ∈ quotes ps, q ≠ p)
    (hj : (j : ℤ) = (bisectLeft (trackerOf r ps).prices r : ℤ) + (trackerOf r ps).balance)
    (hj1 : 1 ≤ j) (hj2 : j < (trackerOf r ps).prices.length)
    (hp : p = ((trackerOf r ps).prices.getD (j - 1) 0 +
      (trackerOf r ps).prices.getD j 0) / 2) :
    buyCount ps p = sellCount ps p := by
  have inv := trackInv_trackerOf r ps
  set s := trackerOf r ps with hsdef
  have hperm := prices_perm_quotes inv
  have hsort := inv.sorted
  set a := s.prices.getD (j - 1) 0 with hadef
  set c := s.prices.getD j 0 with hcdef
  have hac_le : a ≤ c := sorted_getD_le hsort (by omega) hj2
  have hamem : a ∈ quotes ps := by
    refine hperm.mem_iff.mp ?_
    rw [hadef, List.getD_eq_getElem s.prices 0 (by omega)]
    exact List.getElem_mem _
  have hac : a < c := by
    rcases lt_or_eq_of_le hac_le with h | h
    · exact h
    · exfalso
      have hpa : p = a := by
        rw [hp, ← h]
        ring
      exact hnep a hamem hpa.symm
  have hap : a < p := by
    rw [hp]
    linarith
  have hpc : p < c := by
    rw [hp]
    linarith
  have hbp : bisectLeft s.prices p = j := bisectLeft_at_midgap hsort hj1 hj2 hap hpc
  have hcountp : (quotes ps).countP (fun q => decide (q < p)) = j := by
    rw [← hperm.countP_eq, ← bisectLeft_eq_countP p hsort, hbp]
  have hcountr : ((quotes ps).countP (fun q => decide (q < r)) : ℤ) =
      (bisectLeft s.prices r : ℤ) := by
    rw [← hperm.countP_eq, ← bisectLeft_eq_countP r hsort]
  have hsub := sbal_sub_count hrat hnep hner
  have hbal : s.balance = sbal r ps := inv.bal_eq
  have hzero : sbal p ps = 0 := by
    rw [hcountp] at hsub
    omega
  have hcounts := counts_sub_eq_neg_sbal hrat hnep
  rw [hzero] at hcounts
  omega

/-- C1, amended: the balance invariant holds for every insert sequence in
which every pair is non-inverted (its buy quote strictly below its sell
quote), no registered quote equals the persisted reference price, and the
price returned by `compute_price` equals no registered quote: then the
number of buy quotes strictly below the returned price equals the number
of sell quotes strictly above it.  Each hypothesis is load-bearing: a
returned price equal to a registered quote sits on an interval boundary
where the counts split unevenly, and an inverted pair contributes weight
+1, letting the search stop on an interval whose zero stored balance does
not mean equal counts. -/
theorem C1_amended (r : ℚ) (ps : List (ℚ × ℚ)) (p : ℚ) (s1 : PRS ℚ)
    (hrat : ∀ pr ∈ ps, pr.2 < pr.1)
    (hner : ∀ q ∈ quotes ps, q ≠ r)
    (hnep : ∀ q ∈ quotes ps, q ≠ p)
    (hcall : computePrice (trackerOf r ps) = .ok (p, s1)) :
    buyCount ps p = sellCount ps p := by
  have inv := trackInv_trackerOf r ps
  set s := trackerOf r ps with hsdef
  have hsort := inv.sorted
  have hperm := prices_perm_quotes inv
  have hD := bdiffs_allNeg1 inv hrat
  have hlen0 : 0 < s.prices.length := by
    by_contra hc
    rw [computePrice, if_pos (by omega)] at hcall
    cases hcall
  have hlen2 : s.prices.length = 2 * ps.length := tracker_prices_length r ps
  have hn1 : 1 ≤ ps.length := by omega
  have hstart : bisectLeft s.prices s.priceRef ≤ s.bdiffs.length := by
    rw [inv.len_eq]
    exact bisectLeft_le_length _ _
  rcases eq_or_ne s.balance 0 with hb0 | hb0
  · -- balance already zero: the midpoint around the reference interval
    have hidx1 : 1 ≤ bisectLeft s.prices s.priceRef := by
      by_contra hcon
      have h0 : bisectLeft s.prices s.priceRef = 0 := by omega
      have hcnt : s.prices.countP (fun y => decide (y < s.priceRef)) = 0 := by
        rw [← bisectLeft_eq_countP _ hsort, h0]
      have hall : ∀ q ∈ quotes ps, r < q := by
        intro q hq
        have hqp : q ∈ s.prices := hperm.mem_iff.mpr hq
        have hnlt : ¬q < s.priceRef := by
          have := List.countP_eq_zero.mp hcnt q hqp
          simpa using this
        rw [inv.ref_eq] at hnlt
        rcases lt_or_eq_of_le (not_lt.mp hnlt) with h | h
        · exact h
        · exact absurd h.symm (hner q hq)
      have := sbal_below hall
      rw [sumW_rational hrat] at this
      rw [inv.bal_eq, this] at hb0
      omega
    have hidx2 : bisectLeft s.prices s.priceRef < s.prices.length := by
      rcases lt_or_ge (bisectLeft s.prices s.priceRef) s.prices.length with h | h
      · exact h
      · exfalso
        have h0 : bisectLeft s.prices s.priceRef = s.prices.length := by
          have := bisectLeft_le_length s.prices s.priceRef
          omega
        have hcnt : s.prices.countP (fun y => decide (y < s.priceRef)) =
            s.prices.length := by
          rw [← bisectLeft_eq_countP _ hsort, h0]
        have hall : ∀ q ∈ quotes ps, q < r := by
          intro q hq
          have hqp : q ∈ s.prices := hperm.mem_iff.mpr hq
          have := List.countP_eq_length.mp hcnt q hqp
          rw [← inv.ref_eq]
          simpa using this
        have := sbal_above hall
        rw [sumW_rational hrat] at this
        rw [inv.bal_eq, this] at hb0
        omega
    have ha := pyGet_pred_eq_some hidx1 (le_of_lt hidx2)
    have hc := pyGet_eq_some hidx2
    have heval := computePrice_bal0 hlen0 hb0 ha hc
    rw [hcall, Except.ok.injEq, Prod.mk.injEq] at heval
    refine C1_core r ps p (bisectLeft s.prices s.priceRef) hrat hner hnep ?_
      hidx1 hidx2 ?_
    · rw [← hsdef, ← inv.ref_eq, hb0]
      ring
    · rw [← hsdef]
      exact heval.1
  · rcases lt_or_gt_of_ne hb0 with hbneg | hbpos
    · -- negative balance: downward search must have succeeded
      have hhi : searchHi s (bisectLeft s.prices s.priceRef) = some none :=
        searchHi_allNeg1_fail hD inv.len_eq hstart hb0 (Or.inl hbneg)
      rcases le_or_lt 1 ((bisectLeft s.prices s.priceRef : ℤ) + s.balance) with hin | hout
      · obtain ⟨j, hjval, hj1, hj2, hlo⟩ :=
          searchLo_allNeg1_success hD inv.len_eq hstart hbneg hin
        have heval := computePrice_search hlen0 hb0 hlo hhi
        rw [hcall] at heval
        simp only [pickCloser] at heval
        rw [Except.ok.injEq, Prod.mk.injEq] at heval
        refine C1_core r ps p j hrat hner hnep ?_ hj1 hj2 ?_
        · rw [← hsdef, ← inv.ref_eq]
          exact hjval
        · rw [← hsdef, heval.1]
          ring
      · have hlo : searchLo s (bisectLeft s.prices s.priceRef) = some none :=
          searchLo_allNeg1_fail hD inv.len_eq hstart hb0 (Or.inr hout)
        have heval := computePrice_search hlen0 hb0 hlo hhi
        rw [hcall] at heval
        simp only [pickCloser] at heval
        cases heval
    · -- positive balance: upward search must have succeeded
      have hlo : searchLo s (bisectLeft s.prices s.priceRef) = some none :=
        searchLo_allNeg1_fail hD inv.len_eq hstart hb0 (Or.inl hbpos)
      rcases lt_or_ge ((bisectLeft s.prices s.priceRef : ℤ) + s.balance)
        (s.prices.length : ℤ) with hin | hout
      · obtain ⟨j, hjval, hj1, hj2, hhi⟩ :=
          searchHi_allNeg1_success hD inv.len_eq hstart hbpos hin
        have heval := computePrice_search hlen0 hb0 hlo hhi
        rw [hcall] at heval
        simp only [pickCloser] at heval
        rw [Except.ok.injEq, Prod.mk.injEq] at heval
        refine C1_core r ps p j hrat hner hnep ?_ hj1 hj2 ?_
        · rw [← hsdef, ← inv.ref_eq]
          exact hjval
        · rw [← hsdef]
          exact heval.1
      · have hhi2 : searchHi s (bisectLeft s.prices s.priceRef) = some none :=
          searchHi_allNeg1_fail hD inv.len_eq hstart hb0 (Or.inr (by omega))
        have heval := computePrice_search hlen0 hb0 hlo hhi2
        rw [hcall] at heval
        simp only [pickCloser] at heval
        cases heval

/-- Witness for the amended C1: insert(1,−1) on a fresh tracker; solve
returns 0 and one buy quote lies below 0, one sell quote above. -/
theorem C1_amended_witness :
    (∀ pr ∈ [((1 : ℚ), (-1 : ℚ))], pr.2 < pr.1) ∧
      buyCount [((1 : ℚ), (-1 : ℚ))] 0 = sellCount [((1 : ℚ), (-1 : ℚ))] 0 :=
  ⟨by norm_num, C1_amended 0 [(1, -1)] 0 ⟨[-1, 1], [-1, -1], 0, 0⟩
    (by norm_num)
    (by norm_num [quotes])
    (by norm_num [quotes])
    (by norm_num [trackerOf, insertAll, clearedPR, prInsert, pairWeight, bisectLeft,
      computePrice, pyGet, searchLo, searchHi, walkUp, walkDown, walkUpAux,
      walkDownAux, pickCloser] <;> (simp only [Int.reduceToNat]; norm_num))⟩

end MXTM

namespace MXTM

/-! ### C7, amended: `insert` never validates and always grows both lists -/

/-- C7, amended: `insert` performs no validation and never fails; for every
quote pair — finite or infinite (the order `α` can be `PyF`) — it grows
`prices` and `balanceDeltas` by exactly 2 and preserves the ascending order
of `prices`.  (`C7_counterexample` shows the original claim's validation
does not exist: infinite quotes are inserted like any others.) -/
theorem C7_amended {α : Type} [LinearOrder α] (s : PRS α) (a b : α)
    (hsort : s.prices.Sorted (· ≤ ·)) (hlen : s.bdiffs.length = s.prices.length) :
    (prInsert s a b).prices.length = s.prices.length + 2 ∧
      (prInsert s a b).bdiffs.length = s.prices.length + 2 ∧
      (prInsert s a b).prices.Sorted (· ≤ ·) :=
  ⟨(prInsert_prices_length hlen a b).1, (prInsert_prices_length hlen a b).2,
    prInsert_sorted hsort a b⟩

/-- Witness for the amended C7 at the infinite pair (inf, inf) on a fresh
tracker over the extended float domain. -/
theorem C7_amended_witness :
    prInitF.prices.Sorted (· ≤ ·) ∧
      ((prInsert prInitF pInf pInf).prices.length = prInitF.prices.length + 2 ∧
        (prInsert prInitF pInf pInf).bdiffs.length = prInitF.prices.length + 2 ∧
        (prInsert prInitF pInf pInf).prices.Sorted (· ≤ ·)) :=
  ⟨by simp [prInitF], C7_amended prInitF pInf pInf (by simp [prInitF]) rfl⟩

/-! ### The trader model (`trader.py`, class `Trader`)

`Trader.RRMem` round-robin memories are lists indexed modulo their length
(`__getitem__`/`__setitem__` use `key % len(self)`); time stamps are
integers, and Lean's `Int` `%` agrees with Python's for a positive modulus.
The `epsilon_dist` sampler is modelled as a deterministic per-trader
function of the time step (derandomised sampling). -/

structure Trader where
  A : ℚ
  B : ℚ
  C : ℚ
  D : ℚ
  state : List ℤ
  eps : List ℚ
  epsDist : ℤ → ℚ
  percPrice : List ℚ

/-- `RRMem.__getitem__`: look up at `key % len`. -/
def rrGet {β : Type} (l : List β) (t : ℤ) (d : β) : β :=
  l.getD (t % (l.length : ℤ)).toNat d

/-- `RRMem.__setitem__`: store at `key % len`. -/
def rrSet {β : Type} (l : List β) (t : ℤ) (v : β) : List β :=
  l.set (t % (l.length : ℤ)).toNat v

/-- `Trader._influence`: the sum of the neighbours' states at time `t`. -/
def influence (ns : List Trader) (t : ℤ) : ℤ :=
  (ns.map (fun n => rrGet n.state t 0)).sum

/-- `Trader.update_epsilon(t)`. -/
def update_epsilon (tr : Trader) (t : ℤ) : Trader :=
  { tr with eps := rrSet tr.eps t (tr.epsDist t) }

/-- The drift term `K` computed identically by `compute_price_points` and
`update_state` (reading `eps[t]`, `perc_price[t-1]` and the neighbours'
states at `t-1`). -/
def driftK (tr : Trader) (t : ℤ) (ns : List Trader) : ℚ :=
  (tr.A + tr.B) * rrGet tr.eps t 0 - tr.B * rrGet tr.percPrice (t - 1) 0 +
    tr.C * (influence ns (t - 1) : ℚ) + tr.D

/-- `Trader.compute_price_points(t, neighbors)`; `Trader._s = 1` and
`Trader._b = -1` are the fixed cutoffs.  (The source also prints a warning
when `p_b > p_s`; printing has no effect on state.) -/
def compute_price_points (tr : Trader) (t : ℤ) (ns : List Trader) : ℚ × ℚ :=
  let K := driftK tr t ns
  ((1 - K) / (tr.A + tr.B), (-1 - K) / (tr.A + tr.B))

/-- `Trader.update_state(t, price_t, neighbors)`: writes
`perc_price[t] = price_t + eps[t]` first, then recomputes `K` (reading
`perc_price[t-1]` from the already-updated memory, exactly as the source
does) and sets `state[t]` from the cutoffs. -/
def update_state (tr : Trader) (t : ℤ) (price_t : ℚ) (ns : List Trader) : Trader :=
  let pp := rrSet tr.percPrice t (price_t + rrGet tr.eps t 0)
  let K := (tr.A + tr.B) * rrGet tr.eps t 0 - tr.B * rrGet pp (t - 1) 0 +
    tr.C * (influence ns (t - 1) : ℚ) + tr.D
  let L := (tr.A + tr.B) * price_t + K
  { tr with
    percPrice := pp
    state := rrSet tr.state t (if L < -1 then -1 else if L ≤ 1 then 0 else 1) }

theorem rrSet_length {β : Type} (l : List β) (t : ℤ) (v : β) :
    (rrSet l t v).length = l.length := by
  rw [rrSet, List.length_set]

theorem rr_index_lt {β : Type} (l : List β) (t : ℤ) (h : l ≠ []) :
    (t % (l.length : ℤ)).toNat < l.length := by
  have hlen : 0 < l.length := List.length_pos.mpr h
  have h1 : 0 ≤ t % (l.length : ℤ) := Int.emod_nonneg t (by omega)
  have h2 : t % (l.length : ℤ) < l.length := Int.emod_lt_of_pos t (by omega)
  omega

theorem rrGet_rrSet_same {β : Type} {l : List β} (h : l ≠ []) (t : ℤ) (v : β) (d : β) :
    rrGet (rrSet l t v) t d = v := by
  have hlt := rr_index_lt l t h
  rw [rrGet, rrSet, List.length_set, List.getD_eq_getElem _ d (by rw [List.length_set]; omega),
    List.getElem_set]
  simp

theorem rr_index_ne {β : Type} (l : List β) (t : ℤ) (hlen : 2 ≤ l.length) :
    (t % (l.length : ℤ)).toNat ≠ ((t - 1) % (l.length : ℤ)).toNat := by
  intro he
  have hpos : (0:ℤ) < (l.length : ℤ) := by omega
  have h1 : 0 ≤ t % (l.length : ℤ) := Int.emod_nonneg t (by omega)
  have h2 : 0 ≤ (t - 1) % (l.length : ℤ) := Int.emod_nonneg (t - 1) (by omega)
  have he2 : t % (l.length : ℤ) = (t - 1) % (l.length : ℤ) := by omega
  have e1 : (l.length : ℤ) * (t / (l.length : ℤ)) + t % (l.length : ℤ) = t :=
    Int.ediv_add_emod t (l.length : ℤ)
  have e2 : (l.length : ℤ) * ((t - 1) / (l.length : ℤ)) + (t - 1) % (l.length : ℤ) = t - 1 :=
    Int.ediv_add_emod (t - 1) (l.length : ℤ)
  have hd : ((l.length : ℤ)) ∣ 1 :=
    ⟨t / (l.length : ℤ) - (t - 1) / (l.length : ℤ), by linarith⟩
  have := Int.le_of_dvd (by norm_num) hd
  omega

theorem rrGet_rrSet_pred {β : Type} {l : List β} (hlen : 2 ≤ l.length) (t : ℤ) (v : β)
    (d : β) : rrGet (rrSet l t v) (t - 1) d = rrGet l (t - 1) d := by
  have hne : l ≠ [] := by intro h; rw [h] at hlen; simp at hlen
  have hlt : ((t - 1) % (l.length : ℤ)).toNat < l.length := rr_index_lt l (t - 1) hne
  rw [rrGet, rrSet, List.length_set, rrGet,
    List.getD_eq_getElem _ d (by rw [List.length_set]; omega),
    List.getD_eq_getElem _ d hlt, List.getElem_set,
    if_neg (rr_index_ne l t hlen)]

/-- C9: `update_state` writes the perceived price `price + eps[t]`, its
state cutoff uses the same drift term `K` as `compute_price_points`
evaluated on the pre-call state (the just-written perceived price at `t` is
not read, given at least two memory slots), and the new state is one of
−1, 0, 1. -/
theorem C9_update_state (tr : Trader) (t : ℤ) (price : ℚ) (ns : List Trader)
    (hpp : 2 ≤ tr.percPrice.length) (hst : tr.state ≠ []) :
    rrGet (update_state tr t price ns).percPrice t 0 = price + rrGet tr.eps t 0 ∧
      compute_price_points tr t ns =
        ((1 - driftK tr t ns) / (tr.A + tr.B), (-1 - driftK tr t ns) / (tr.A + tr.B)) ∧
      rrGet (update_state tr t price ns).state t 0 =
        (if (tr.A + tr.B) * price + driftK tr t ns < -1 then -1
         else if (tr.A + tr.B) * price + driftK tr t ns ≤ 1 then 0 else 1) ∧
      (rrGet (update_state tr t price ns).state t 0 = -1 ∨
        rrGet (update_state tr t price ns).state t 0 = 0 ∨
        rrGet (update_state tr t price ns).state t 0 = 1) := by
  have hppne : tr.percPrice ≠ [] := by
    intro h
    rw [h] at hpp
    simp at hpp
  have hKeq : (tr.A + tr.B) * rrGet tr.eps t 0 -
      tr.B * rrGet (rrSet tr.percPrice t (price + rrGet tr.eps t 0)) (t - 1) 0 +
      tr.C * (influence ns (t - 1) : ℚ) + tr.D = driftK tr t ns := by
    rw [rrGet_rrSet_pred hpp, driftK]
  refine ⟨?_, rfl, ?_, ?_⟩
  · simp only [update_state]
    exact rrGet_rrSet_same hppne t _ 0
  · simp only [update_state]
    rw [rrGet_rrSet_same hst t _ 0, hKeq]
  · simp only [update_state]
    rw [rrGet_rrSet_same hst t _ 0]
    split_ifs <;> simp

/-- Witness for C9 at a concrete trader. -/
theorem C9_update_state_witness :
    2 ≤ (⟨1, 0, 0, 0, [0, 0], [0, 0], fun x => 0, [0, 0]⟩ : Trader).percPrice.length ∧
      (rrGet (update_state ⟨1, 0, 0, 0, [0, 0], [0, 0], fun x => 0, [0, 0]⟩ 1 5 []).state 1 0
          = -1 ∨
        rrGet (update_state ⟨1, 0, 0, 0, [0, 0], [0, 0], fun x => 0, [0, 0]⟩ 1 5 []).state 1 0
          = 0 ∨
        rrGet (update_state ⟨1, 0, 0, 0, [0, 0], [0, 0], fun x => 0, [0, 0]⟩ 1 5 []).state 1 0
          = 1) :=
  ⟨by norm_num,
    (C9_update_state ⟨1, 0, 0, 0, [0, 0], [0, 0], fun x => 0, [0, 0]⟩ 1 5 []
      (by norm_num) (by simp)).2.2.2⟩

end MXTM

namespace MXTM

/-! ### The simulation driver (`simulation.py`)

`time_step(t, graph, price_range)` iterates `graph.nodes.keys()` twice in
the same fixed order; the graph is modelled as a node list plus an
adjacency function on indices, and the iteration order is that node-key
order, passed explicitly as a list of indices. -/

/-- Fallback trader for out-of-range lookups (never reached on well-formed
graphs). -/
def defaultTrader : Trader :=
  ⟨0, 0, 0, 0, [], [], fun x => 0, []⟩

structure MGraph where
  nodes : List Trader
  adj : ℕ → List ℕ

/-- First loop of `time_step`: for each node in order, refresh epsilon,
compute the quote pair from the current population, insert it into the
tracker.  Returns the updated nodes and tracker together with the list of
inserted quote pairs. -/
def phase1 (t : ℤ) (adj : ℕ → List ℕ) :
    List ℕ → List Trader → PRS ℚ → List Trader × PRS ℚ × List (ℚ × ℚ)
  | [], nodes, pr => (nodes, pr, [])
  | i :: rest, nodes, pr =>
    let tr1 := update_epsilon (nodes.getD i defaultTrader) t
    let nodes1 := nodes.set i tr1
    let q := compute_price_points tr1 t ((adj i).map (fun k => nodes1.getD k defaultTrader))
    let pr1 := prInsert pr q.1 q.2
    let res := phase1 t adj rest nodes1 pr1
    (res.1, res.2.1, q :: res.2.2)

/-- Second loop of `time_step`: update every node's state from the
computed price. -/
def phase2 (t : ℤ) (adj : ℕ → List ℕ) (p : ℚ) : List ℕ → List Trader → List Trader
  | [], nodes => nodes
  | i :: rest, nodes =>
    let tr1 := update_state (nodes.getD i defaultTrader) t p
      ((adj i).map (fun k => nodes.getD k defaultTrader))
    phase2 t adj p rest (nodes.set i tr1)

/-- `simulation.time_step(t, graph, price_range)`. -/
def time_step (t : ℤ) (g : MGraph) (order : List ℕ) (pr : PRS ℚ) :
    Except PRError (MGraph × PRS ℚ × ℚ) :=
  let r1 := phase1 t g.adj order g.nodes (clearPrices pr)
  match computePrice r1.2.1 with
  | .error e => .error e
  | .ok (p, pr2) => .ok ({ g with nodes := phase2 t g.adj p order r1.1 }, pr2, p)

/-- The quote pair of node `i` as a pure function of the population state
at entry to the step: its own refreshed trader and its neighbours' states. -/
def quoteFn (t : ℤ) (adj : ℕ → List ℕ) (entry : List Trader) (i : ℕ) : ℚ × ℚ :=
  compute_price_points (update_epsilon (entry.getD i defaultTrader) t) t
    ((adj i).map (fun k => entry.getD k defaultTrader))

/-- Agreement of two traders on everything the quoting pass reads except
the stored epsilon values (only their count matters, since `eps[t]` is
overwritten before being read). -/
structure EpsObs (a b : Trader) : Prop where
  hA : a.A = b.A
  hB : a.B = b.B
  hC : a.C = b.C
  hD : a.D = b.D
  hstate : a.state = b.state
  hpp : a.percPrice = b.percPrice
  hdist : a.epsDist = b.epsDist
  heps : a.eps.length = b.eps.length

theorem epsObs_refl (a : Trader) : EpsObs a a :=
  ⟨rfl, rfl, rfl, rfl, rfl, rfl, rfl, rfl⟩

theorem epsObs_update_epsilon {a b : Trader} (h : EpsObs a b) (t : ℤ) :
    EpsObs (update_epsilon a t) b :=
  ⟨h.hA, h.hB, h.hC, h.hD, h.hstate, h.hpp, h.hdist, by
    rw [update_epsilon]
    simpa [rrSet_length] using h.heps⟩

theorem update_epsilon_state (a : Trader) (t : ℤ) : (update_epsilon a t).state = a.state := rfl

theorem rrGet_rrSet_same_or {β : Type} (l : List β) (t : ℤ) (v d : β) :
    rrGet (rrSet l t v) t d = if l.length = 0 then d else v := by
  rcases eq_or_ne l [] with h | h
  · subst h
    simp [rrGet, rrSet]
  · rw [if_neg (by simpa [List.length_eq_zero] using h)]
    exact rrGet_rrSet_same h t v d

theorem influence_congr (l : List ℕ) (t : ℤ) (f g : ℕ → Trader)
    (h : ∀ k ∈ l, (f k).state = (g k).state) :
    influence (l.map f) t = influence (l.map g) t := by
  induction l with
  | nil => rfl
  | cons i rest ih =>
    rw [List.map_cons, List.map_cons, influence, influence, List.map_cons, List.map_cons,
      List.sum_cons, List.sum_cons]
    rw [show rrGet (f i).state t 0 = rrGet (g i).state t 0 by
        rw [h i (List.mem_cons_self i rest)],
      show ((rest.map f).map (fun n => rrGet n.state t 0)).sum =
          ((rest.map g).map (fun n => rrGet n.state t 0)).sum by
        have := ih (fun k hk => h k (List.mem_cons_of_mem i hk))
        rw [influence, influence] at this
        exact this]

theorem quote_congr {a b : Trader} (hobs : EpsObs a b) (t : ℤ)
    {ns ns' : List Trader} (hinf : influence ns (t - 1) = influence ns' (t - 1)) :
    compute_price_points (update_epsilon a t) t ns =
      compute_price_points (update_epsilon b t) t ns' := by
  have hK : driftK (update_epsilon a t) t ns = driftK (update_epsilon b t) t ns' := by
    rw [driftK, driftK]
    have hget : rrGet (update_epsilon a t).eps t 0 = rrGet (update_epsilon b t).eps t 0 := by
      show rrGet (rrSet a.eps t (a.epsDist t)) t 0 = rrGet (rrSet b.eps t (b.epsDist t)) t 0
      rw [rrGet_rrSet_same_or, rrGet_rrSet_same_or, hobs.heps, hobs.hdist]
    have hpp2 : (update_epsilon a t).percPrice = (update_epsilon b t).percPrice := by
      show a.percPrice = b.percPrice
      exact hobs.hpp
    rw [hget, hpp2, hinf]
    show (a.A + a.B) * _ - a.B * _ + a.C * _ + a.D = (b.A + b.B) * _ - b.B * _ + b.C * _ + b.D
    rw [hobs.hA, hobs.hB, hobs.hC, hobs.hD]
  rw [compute_price_points, compute_price_points, hK]
  show ((1 - _) / (a.A + a.B), (-1 - _) / (a.A + a.B)) =
    ((1 - _) / (b.A + b.B), (-1 - _) / (b.A + b.B))
  rw [hobs.hA, hobs.hB]

theorem getD_set_self {β : Type} (l : List β) (i : ℕ) (v d : β) (h : i < l.length) :
    (l.set i v).getD i d = v := by
  rw [List.getD_eq_getElem _ d (by rw [List.length_set]; omega), List.getElem_set, if_pos rfl]

theorem getD_set_ne {β : Type} (l : List β) {i k : ℕ} (v d : β) (h : i ≠ k) :
    (l.set i v).getD k d = l.getD k d := by
  rw [List.getD_eq_getElem?_getD, List.getD_eq_getElem?_getD, List.getElem?_set_ne h]

theorem insertAll_cons (s : PRS ℚ) (q : ℚ × ℚ) (l : List (ℚ × ℚ)) :
    insertAll s (q :: l) = insertAll (prInsert s q.1 q.2) l := rfl

theorem phase1_spec (t : ℤ) (adj : ℕ → List ℕ) (entry : List Trader) :
    ∀ (order : List ℕ) (nodes : List Trader) (pr : PRS ℚ),
      (∀ k : ℕ, EpsObs (nodes.getD k defaultTrader) (entry.getD k defaultTrader)) →
      nodes.length = entry.length →
      (phase1 t adj order nodes pr).2.2 = order.map (quoteFn t adj entry) ∧
        (∀ k : ℕ, EpsObs ((phase1 t adj order nodes pr).1.getD k defaultTrader)
          (entry.getD k defaultTrader)) ∧
        (phase1 t adj order nodes pr).1.length = entry.length ∧
        (phase1 t adj order nodes pr).2.1 =
          insertAll pr (phase1 t adj order nodes pr).2.2 := by
  intro order
  induction order with
  | nil =>
    intro nodes pr hobs hlen
    refine ⟨rfl, hobs, hlen, rfl⟩
  | cons i rest ih =>
    intro nodes pr hobs hlen
    have hobsi := hobs i
    have htr1 : EpsObs (update_epsilon (nodes.getD i defaultTrader) t)
        (entry.getD i defaultTrader) := epsObs_update_epsilon hobsi t
    have hobs1 : ∀ k : ℕ,
        EpsObs ((nodes.set i (update_epsilon (nodes.getD i defaultTrader) t)).getD k
          defaultTrader) (entry.getD k defaultTrader) := by
      intro k
      rcases eq_or_ne i k with hik | hik
      · subst hik
        rcases lt_or_ge i nodes.length with hi | hi
        · rw [getD_set_self _ _ _ _ hi]
          exact htr1
        · rw [List.set_eq_of_length_le hi]
          exact hobs i
      · rw [getD_set_ne _ _ _ hik]
        exact hobs k
    have hlen1 : (nodes.set i (update_epsilon (nodes.getD i defaultTrader) t)).length =
        entry.length := by rw [List.length_set]; exact hlen
    have hq : compute_price_points (update_epsilon (nodes.getD i defaultTrader) t) t
        ((adj i).map (fun k => (nodes.set i (update_epsilon (nodes.getD i defaultTrader) t)).getD
          k defaultTrader)) = quoteFn t adj entry i := by
      rw [quoteFn]
      refine quote_congr hobsi t ?_
      refine influence_congr (adj i) (t - 1) _ _ ?_
      intro k hk
      rcases eq_or_ne i k with hik | hik
      · subst hik
        rcases lt_or_ge i nodes.length with hi | hi
        · rw [getD_set_self _ _ _ _ hi, update_epsilon_state]
          exact hobsi.hstate
        · rw [List.set_eq_of_length_le hi]
          exact hobsi.hstate
      · rw [getD_set_ne _ _ _ hik]
        exact (hobs k).hstate
    obtain ⟨e1, e2, e3, e4⟩ := ih (nodes.set i (update_epsilon (nodes.getD i defaultTrader) t))
      (prInsert pr (compute_price_points (update_epsilon (nodes.getD i defaultTrader) t) t
        ((adj i).map (fun k => (nodes.set i (update_epsilon (nodes.getD i defaultTrader) t)).getD
          k defaultTrader))).1
        (compute_price_points (update_epsilon (nodes.getD i defaultTrader) t) t
        ((adj i).map (fun k => (nodes.set i (update_epsilon (nodes.getD i defaultTrader) t)).getD
          k defaultTrader))).2) hobs1 hlen1
    refine ⟨?_, e2, e3, ?_⟩
    · show _ :: _ = _ :: _
      rw [e1, hq]
    · exact e4


end MXTM

namespace MXTM

/-- C2: in one `time_step`, before the price is solved, every agent's quote
pair is a function `quoteFn` of the population as it was at entry to the
step; the first pass writes no agent's state or perceived-price history;
the tracker handed to the solver is exactly the cleared tracker with all
quotes inserted; and the multiset of inserted quotes is invariant under
permuting the iteration order of the agents. -/
theorem C2_step_order (t : ℤ) (g : MGraph) (pr : PRS ℚ) (o1 o2 : List ℕ)
    (hperm : List.Perm o1 o2) :
    (phase1 t g.adj o1 g.nodes (clearPrices pr)).2.2 =
        o1.map (quoteFn t g.adj g.nodes) ∧
      (∀ k : ℕ,
        ((phase1 t g.adj o1 g.nodes (clearPrices pr)).1.getD k defaultTrader).state =
            (g.nodes.getD k defaultTrader).state ∧
          ((phase1 t g.adj o1 g.nodes (clearPrices pr)).1.getD k
              defaultTrader).percPrice =
            (g.nodes.getD k defaultTrader).percPrice) ∧
      (phase1 t g.adj o1 g.nodes (clearPrices pr)).2.1 =
        insertAll (clearPrices pr) (phase1 t g.adj o1 g.nodes (clearPrices pr)).2.2 ∧
      ((phase1 t g.adj o1 g.nodes (clearPrices pr)).2.2 : Multiset (ℚ × ℚ)) =
        ((phase1 t g.adj o2 g.nodes (clearPrices pr)).2.2 : Multiset (ℚ × ℚ)) := by
  obtain ⟨e1, e2, e3, e4⟩ := phase1_spec t g.adj g.nodes o1 g.nodes (clearPrices pr)
    (fun k => epsObs_refl _) rfl
  obtain ⟨f1, f2, f3, f4⟩ := phase1_spec t g.adj g.nodes o2 g.nodes (clearPrices pr)
    (fun k => epsObs_refl _) rfl
  refine ⟨e1, fun k => ⟨(e2 k).hstate, (e2 k).hpp⟩, e4, ?_⟩
  rw [e1, f1]
  exact Multiset.coe_eq_coe.mpr (hperm.map _)

def c2g : MGraph :=
  ⟨[⟨1, 1, 0, 0, [0, 0], [0, 0], fun x => 0, [0, 0]⟩,
    ⟨1, 1, 0, 0, [0, 0], [0, 0], fun x => 0, [0, 0]⟩], fun i => [1 - i]⟩

theorem C2_step_order_witness :
    List.Perm [0, 1] [1, 0] ∧
      ((phase1 1 c2g.adj [0, 1] c2g.nodes (clearPrices (clearedPR 0))).2.2 =
          [0, 1].map (quoteFn 1 c2g.adj c2g.nodes) ∧
        (∀ k : ℕ,
          ((phase1 1 c2g.adj [0, 1] c2g.nodes (clearPrices (clearedPR 0))).1.getD k
                defaultTrader).state =
              (c2g.nodes.getD k defaultTrader).state ∧
            ((phase1 1 c2g.adj [0, 1] c2g.nodes (clearPrices (clearedPR 0))).1.getD k
                defaultTrader).percPrice =
              (c2g.nodes.getD k defaultTrader).percPrice) ∧
        (phase1 1 c2g.adj [0, 1] c2g.nodes (clearPrices (clearedPR 0))).2.1 =
          insertAll (clearPrices (clearedPR 0))
            (phase1 1 c2g.adj [0, 1] c2g.nodes (clearPrices (clearedPR 0))).2.2 ∧
        ((phase1 1 c2g.adj [0, 1] c2g.nodes (clearPrices (clearedPR 0))).2.2 :
            Multiset (ℚ × ℚ)) =
          ((phase1 1 c2g.adj [1, 0] c2g.nodes (clearPrices (clearedPR 0))).2.2 :
            Multiset (ℚ × ℚ))) :=
  ⟨by decide, C2_step_order 1 c2g (clearedPR 0) [0, 1] [1, 0] (by decide)⟩

/-! ### `simulate_and_distill`

A distiller in the source is an arbitrary callable receiving a time and a
simulation object.  To record faithfully *which* object the source passes,
the object argument is a tagged value: the graph or the tracker. -/

inductive SimObj where
  | graphObj (g : MGraph)
  | prObj (pr : PRS ℚ)

/-- `simulation.evolve` driving `simulate_and_distill`'s loop body, with
the distiller calls of the source inlined: per source line 203 the
price-range distiller is called as `price_range_distiller(t, graph)`. -/
def simulate_and_distill {β : Type} (g : MGraph) (order : List ℕ)
    (pr : PRS ℚ) (graph_distiller price_range_distiller : Option (ℤ → SimObj → β)) :
    List ℤ → Except PRError (List (List β))
  | [] => .ok []
  | t :: ts =>
    match time_step t g order pr with
    | .error e => .error e
    | .ok (g1, pr1, _) =>
      let row :=
        (match graph_distiller with
          | none => []
          | some f => [f t (SimObj.graphObj g1)]) ++
        (match price_range_distiller with
          | none => []
          | some f => [f t (SimObj.graphObj g1)])
      match simulate_and_distill g1 order pr1 graph_distiller price_range_distiller ts with
      | .error e => .error e
      | .ok rows => .ok (row :: rows)

/-- Discriminator distiller: `true` iff the object it was handed is the
tracker. -/
def isPRObj : SimObj → Bool
  | .prObj _ => true
  | .graphObj _ => false

def oneTrader : Trader := ⟨1, 0, 0, 0, [0, 0], [0, 0], fun x => 0, [0, 0]⟩

def oneG : MGraph := ⟨[oneTrader], fun i => []⟩

/-- C8: the per-step tuple arity does match the number of non-None
distillers (0 with none, 2 with both), but the price-range distiller does
NOT receive the PriceRanges object: on a one-trader, one-step run a
discriminator distiller that returns `true` exactly on a tracker argument
comes back `false`, because `simulate_and_distill` passes the graph to
both distillers (source line 203). -/
theorem C8_code_bug :
    simulate_and_distill oneG [0] (clearedPR 0) none
        (some (fun _ x => isPRObj x)) [1] = .ok [[false]] ∧
      simulate_and_distill oneG [0] (clearedPR 0) (some (fun _ x => isPRObj x))
        (some (fun _ x => isPRObj x)) [1] = .ok [[false, false]] ∧
      simulate_and_distill oneG [0] (clearedPR 0)
        (none : Option (ℤ → SimObj → Bool)) none [1] = .ok [[]] := by
  refine ⟨?_, ?_, ?_⟩ <;>
    norm_num [simulate_and_distill, time_step, phase1, phase2, oneG, oneTrader,
      update_epsilon, compute_price_points, driftK, influence, rrGet, rrSet,
      update_state, prInsert, clearPrices, clearedPR, bisectLeft, pairWeight,
      computePrice, searchHi, searchLo, walkUp, walkDown, walkUpAux, walkDownAux,
      pyGet, pickCloser, List.insertIdx, isPRObj, defaultTrader]

end MXTM
